import Mathlib

/-!
# LightTable-Go client (`src/client/echo_server.go`)

A shallow embedding of the frame codec (`NewMessage`, `Message.ToJSON`), of the
evaluation task (`EvalHandler`, `Send`), of the handshake (`Start`) and of the
dispatcher loop (`Handle`, `Stop`), followed by the properties proved about them.

Modelling conventions.

* A Go `string` that lives in memory (a field of `Message` or `Info`) is a Lean
  `String`; text on the wire is a `List Char`.  Both are sequences of Unicode scalar
  values, so only valid UTF-8 text is represented.
* A Go `int` is an `Int`; the 64-bit range is checked where the program checks it
  (`strconv.ParseInt` inside `json.Unmarshal`, `strconv.Atoi`).
* A run-time panic of the Go program is a value of `Fault`; a function that can panic
  returns `Except Fault _`.
* A `nil` pointer (`*Message`, `*Meta`, `*Pos`) is `none`; a `nil` slice and an empty
  slice are both `[]`.
* The functions of the Go standard library the program calls (`strings.TrimSpace`,
  `strings.SplitN`, `json.Marshal`, `json.Unmarshal`, `strconv.Atoi`) are modelled by
  executable definitions following their documented behaviour.
-/

namespace LightTable

/-! ## Run-time faults -/

/-- Run-time panics of the Go program that the decoder can raise. -/
inductive Fault where
  | sliceBounds
  | indexOutOfRange
  deriving DecidableEq

/-! ## `strings` -/

/-- Go `unicode.IsSpace`: the characters `strings.TrimSpace` removes. -/
def isSpace (c : Char) : Bool :=
  let n := c.toNat
  (9 ≤ n && n ≤ 13) || n = 0x20 || n = 0x85 || n = 0xA0 || n = 0x1680 ||
  (0x2000 ≤ n && n ≤ 0x200A) || n = 0x2028 || n = 0x2029 || n = 0x202F ||
  n = 0x205F || n = 0x3000

/-- Go `strings.TrimSpace`: removes leading and trailing white space. -/
def TrimSpace (s : List Char) : List Char :=
  ((s.dropWhile isSpace).reverse.dropWhile isSpace).reverse

/-- Go `strings.Index` with a one-character separator, returning the text before
the first occurrence and the text after it. -/
def cut (sep : Char) : List Char → Option (List Char × List Char)
  | [] => none
  | c :: cs =>
    if c = sep then some ([], cs)
    else
      match cut sep cs with
      | none => none
      | some (a, b) => some (c :: a, b)

/-- Go `strings.SplitN(s, sep, n)` for a one-character separator and `n ≥ 0`: at most
`n` pieces, the last one being the unsplit remainder. -/
def SplitN (s : List Char) (sep : Char) : Nat → List (List Char)
  | 0 => []
  | n + 1 =>
    if n = 0 then [s]
    else
      match cut sep s with
      | none => [s]
      | some (a, rest) => a :: SplitN rest sep n

/-- Number of bytes of the UTF-8 encoding of a character. -/
def runeLen (c : Char) : Nat :=
  if c.toNat < 0x80 then 1 else if c.toNat < 0x800 then 2
  else if c.toNat < 0x10000 then 3 else 4

/-- Go `len(s)`: the number of bytes of the string. -/
def byteLen (s : List Char) : Nat := (s.map runeLen).sum

/-- Removal of the first byte of a string.  A one-byte character disappears.  Of a
longer character only stray continuation bytes remain, which are not text; the model
leaves the character in place to stand for them (like them it is not `,`, not white
space and not the start of any JSON value). -/
def dropFirstByte : List Char → List Char
  | [] => []
  | c :: cs => if c.toNat < 0x80 then cs else c :: cs

/-- Removal of the last byte of a string, with the same convention as
`dropFirstByte` for a last character of several bytes. -/
def dropLastByte (s : List Char) : List Char := (dropFirstByte s.reverse).reverse

/-- Go slice expression `s[1 : len(s)-1]`: panics when `len(s) < 2`. -/
def sliceInner (s : List Char) : Except Fault (List Char) :=
  if byteLen s < 2 then .error .sliceBounds
  else .ok (dropLastByte (dropFirstByte s))

/-! ## `encoding/json`: values and the parser -/

/-- A parsed JSON value.  A number keeps its literal text, which is what
`json.Unmarshal` hands to `strconv.ParseInt`. -/
inductive JVal where
  | null
  | bool (b : Bool)
  | num (lit : List Char)
  | str (s : List Char)
  | arr (xs : List JVal)
  | obj (ms : List (List Char × JVal))

/-- JSON white space. -/
def isWS (c : Char) : Bool := c = ' ' || c = '\t' || c = '\r' || c = '\n'

/-- Skips JSON white space. -/
def skipWS (s : List Char) : List Char := s.dropWhile isWS

/-- Decimal digit test. -/
def isDigit (c : Char) : Bool := 48 ≤ c.toNat && c.toNat ≤ 57

/-- Value of a hexadecimal digit. -/
def hexVal (c : Char) : Option Nat :=
  let n := c.toNat
  if 48 ≤ n ∧ n ≤ 57 then some (n - 48)
  else if 97 ≤ n ∧ n ≤ 102 then some (n - 87)
  else if 65 ≤ n ∧ n ≤ 70 then some (n - 55)
  else none

/-- Value of four hexadecimal digits (`getu4`). -/
def hex4 (a b c d : Char) : Option Nat :=
  match hexVal a, hexVal b, hexVal c, hexVal d with
  | some x, some y, some z, some w => some (((x * 16 + y) * 16 + z) * 16 + w)
  | _, _, _, _ => none

/-- Character denoted by a one-letter escape. -/
def simpleEscape (e : Char) : Option Char :=
  if e = '"' then some '"'
  else if e = '\\' then some '\\'
  else if e = '/' then some '/'
  else if e = 'b' then some (Char.ofNat 8)
  else if e = 'f' then some (Char.ofNat 12)
  else if e = 'n' then some '\n'
  else if e = 'r' then some '\r'
  else if e = 't' then some '\t'
  else none

/-- The Unicode replacement character U+FFFD. -/
def replacementChar : Char := Char.ofNat 0xFFFD

/-- Character denoted by the surrogate pair made of the high surrogate `u` and the
escape at the head of `s`, when `s` starts with the escape of a low surrogate
(`utf16.DecodeRune`). -/
def pairedSurrogate (u : Nat) : List Char → Option Char
  | b :: v :: l1 :: l2 :: l3 :: l4 :: _ =>
    match hex4 l1 l2 l3 l4 with
    | some lo =>
      if b = '\\' ∧ v = 'u' ∧ u < 0xDC00 ∧ 0xDC00 ≤ lo ∧ lo < 0xE000 then
        some (Char.ofNat (0x10000 + (u - 0xD800) * 0x400 + (lo - 0xDC00)))
      else none
    | none => none
  | _ => none

/-- Reads an escape after its backslash: the character it denotes and the number of
input characters it takes.  Unknown escapes are syntax errors; an unpaired surrogate
escape decodes to U+FFFD. -/
def readEscape : List Char → Option (Char × Nat)
  | [] => none
  | e :: cs1 =>
    if e = 'u' then
      match cs1 with
      | h1 :: h2 :: h3 :: h4 :: cs2 =>
        match hex4 h1 h2 h3 h4 with
        | none => none
        | some u =>
          if 0xD800 ≤ u ∧ u < 0xE000 then
            match pairedSurrogate u cs2 with
            | none => some (replacementChar, 5)
            | some x => some (x, 11)
          else some (Char.ofNat u, 5)
      | _ => none
    else
      match simpleEscape e with
      | none => none
      | some x => some (x, 1)

/-- Reads the body of a string literal up to and including the closing quote;
returns the decoded text appended to `acc`, and the remaining input.  The number is
the count of characters still to pass over, those of an escape already decoded.
Control characters are syntax errors. -/
def unquoteBody : List Char → Nat → List Char → Option (List Char × List Char)
  | [], _, _ => none
  | _ :: cs, skip + 1, acc => unquoteBody cs skip acc
  | c :: cs, 0, acc =>
    if c = '"' then some (acc, cs)
    else if c = '\\' then
      match readEscape cs with
      | none => none
      | some (x, k) => unquoteBody cs k (acc ++ [x])
    else if c.toNat < 0x20 then none
    else unquoteBody cs 0 (acc ++ [c])

/-- Integer part of a number literal: `0`, or a non-zero digit followed by digits. -/
def lexInt : List Char → Option (List Char × List Char)
  | [] => none
  | c :: r =>
    if c = '0' then some (['0'], r)
    else if isDigit c then some (c :: r.takeWhile isDigit, r.dropWhile isDigit)
    else none

/-- Optional fraction of a number literal: `.` followed by at least one digit. -/
def lexFrac : List Char → Option (List Char × List Char)
  | [] => some ([], [])
  | c :: r =>
    if c = '.' then
      if (r.takeWhile isDigit).isEmpty then none
      else some ('.' :: r.takeWhile isDigit, r.dropWhile isDigit)
    else some ([], c :: r)

/-- Digits of an exponent: at least one. -/
def lexExpDigits (pre r : List Char) : Option (List Char × List Char) :=
  if (r.takeWhile isDigit).isEmpty then none
  else some (pre ++ r.takeWhile isDigit, r.dropWhile isDigit)

/-- Optional exponent of a number literal: `e` or `E`, an optional sign, digits. -/
def lexExp : List Char → Option (List Char × List Char)
  | [] => some ([], [])
  | c :: r =>
    if c = 'e' ∨ c = 'E' then
      match r with
      | [] => none
      | g :: r1 =>
        if g = '+' ∨ g = '-' then lexExpDigits [c, g] r1 else lexExpDigits [c] (g :: r1)
    else some ([], c :: r)

/-- Reads a number literal without its sign. -/
def lexUnsigned (s : List Char) : Option (List Char × List Char) :=
  match lexInt s with
  | none => none
  | some (i, s1) =>
    match lexFrac s1 with
    | none => none
    | some (f, s2) =>
      match lexExp s2 with
      | none => none
      | some (e, s3) => some (i ++ f ++ e, s3)

/-- Reads a JSON number literal; returns its text and the remaining input. -/
def lexNumber : List Char → Option (List Char × List Char)
  | [] => none
  | c :: r =>
    if c = '-' then
      match lexUnsigned r with
      | none => none
      | some (l, s) => some ('-' :: l, s)
    else lexUnsigned (c :: r)

/-- Reads the literal `word` (one of `true`, `false`, `null`). -/
def lexWord (word : List Char) (s : List Char) : Option (List Char) :=
  if s.take word.length = word then some (s.drop word.length) else none

/-- Reads the elements of an array after `[` or `,`, with `p` reading one value. -/
def parseElems (p : List Char → Option (JVal × List Char)) :
    Nat → List Char → List JVal → Option (JVal × List Char)
  | 0, _, _ => none
  | n + 1, s, acc =>
    match p s with
    | none => none
    | some (v, r) =>
      match skipWS r with
      | [] => none
      | c :: r1 =>
        if c = ',' then parseElems p n r1 (acc ++ [v])
        else if c = ']' then some (JVal.arr (acc ++ [v]), r1)
        else none

/-- Reads the members of an object after `{` or `,`, with `p` reading one value. -/
def parseMembers (p : List Char → Option (JVal × List Char)) :
    Nat → List Char → List (List Char × JVal) → Option (JVal × List Char)
  | 0, _, _ => none
  | n + 1, s, acc =>
    match skipWS s with
    | [] => none
    | q :: r =>
      if q = '"' then
        match unquoteBody r 0 [] with
        | none => none
        | some (k, r1) =>
          match skipWS r1 with
          | [] => none
          | c :: r2 =>
            if c = ':' then
              match p r2 with
              | none => none
              | some (v, r3) =>
                match skipWS r3 with
                | [] => none
                | d :: r4 =>
                  if d = ',' then parseMembers p n r4 (acc ++ [(k, v)])
                  else if d = '}' then some (JVal.obj (acc ++ [(k, v)]), r4)
                  else none
            else none
      else none

/-- The number of arrays and objects that `encoding/json` lets enclose one another;
a text nested deeper is a syntax error. -/
def maxNestingDepth : Nat := 10000

/-- Reads one JSON value, skipping leading white space.  The first argument is fuel:
it bounds the nesting depth and the number of elements of each array and object.  Any
fuel above the length of the input gives the same result (`parseValue_fuel`).  The
second argument is the number of arrays and objects that enclose the value. -/
def parseValue : Nat → Nat → List Char → Option (JVal × List Char)
  | 0, _, _ => none
  | fuel + 1, depth, s =>
    match skipWS s with
    | [] => none
    | c :: r =>
      if c = '{' then
        if maxNestingDepth ≤ depth then none
        else
          match skipWS r with
          | [] => none
          | d :: r1 =>
            if d = '}' then some (JVal.obj [], r1)
            else parseMembers (parseValue fuel (depth + 1)) fuel r []
      else if c = '[' then
        if maxNestingDepth ≤ depth then none
        else
          match skipWS r with
          | [] => none
          | d :: r1 =>
            if d = ']' then some (JVal.arr [], r1)
            else parseElems (parseValue fuel (depth + 1)) fuel r []
      else if c = '"' then
        match unquoteBody r 0 [] with
        | none => none
        | some (t, r1) => some (JVal.str t, r1)
      else if c = 't' then (lexWord ['r', 'u', 'e'] r).map (fun r1 => (JVal.bool true, r1))
      else if c = 'f' then
        (lexWord ['a', 'l', 's', 'e'] r).map (fun r1 => (JVal.bool false, r1))
      else if c = 'n' then (lexWord ['u', 'l', 'l'] r).map (fun r1 => (JVal.null, r1))
      else
        match lexNumber (c :: r) with
        | none => none
        | some (l, r1) => some (JVal.num l, r1)

/-- Parses a complete JSON text: one value, surrounded by optional white space.  The
fuel is the length of the text plus one, which is enough (`parseJSON_fuel`). -/
def parseJSON (s : List Char) : Option JVal :=
  match parseValue (s.length + 1) 0 s with
  | none => none
  | some (v, r) => if (skipWS r).isEmpty then some v else none

/-! ## `strconv` -/

/-- Value of a string of decimal digits. -/
def digitsVal (ds : List Char) : Nat := ds.foldl (fun a c => a * 10 + (c.toNat - 48)) 0

/-- Sign and magnitude of a signed decimal numeral. -/
def splitSign : List Char → Bool × List Char
  | [] => (false, [])
  | c :: r => if c = '-' then (true, r) else if c = '+' then (false, r) else (false, c :: r)

/-- Go `strconv.ParseInt(s, 10, 64)`: an optional sign followed by at least one
digit and nothing else, the value being in the 64-bit range. -/
def ParseInt (s : List Char) : Option Int :=
  let ds := (splitSign s).2
  if ds.isEmpty || !ds.all isDigit then none
  else
    let v : Int := if (splitSign s).1 then -(digitsVal ds : Int) else (digitsVal ds : Int)
    if -(2 : Int) ^ 63 ≤ v ∧ v < (2 : Int) ^ 63 then some v else none

/-- Go `strconv.Atoi`. -/
def Atoi (s : List Char) : Option Int := ParseInt s

/-- The decimal digit of a number below ten. -/
def digitChar (d : Nat) : Char := Char.ofNat (48 + d)

/-- Decimal digits of `n`, most significant first, in front of `acc`. -/
def natDigitsAux : Nat → Nat → List Char → List Char
  | 0, _, acc => acc
  | fuel + 1, n, acc =>
    if n < 10 then digitChar n :: acc
    else natDigitsAux fuel (n / 10) (digitChar (n % 10) :: acc)

/-- Decimal numeral of a natural number. -/
def natDigits (n : Nat) : List Char := natDigitsAux (n + 1) n []

/-- Decimal numeral of an integer (`strconv.AppendInt`), the JSON encoding of an
`int`. -/
def encodeInt : Int → List Char
  | Int.ofNat k => natDigits k
  | Int.negSucc k => '-' :: natDigits (k + 1)

/-! ## `encoding/json`: decoding into the types of the program -/

/-- `end` and `start` offsets of a payload. -/
structure Meta where
  End : Int
  Start : Int
  deriving DecidableEq

/-- Cursor position of a payload. -/
structure Pos where
  Ch : Int
  Line : Int
  deriving DecidableEq

/-- The payload of a message.  Every field is optional on the wire (`omitempty`):
an empty string, an empty list and `none` stand for an absent field. -/
structure Info where
  Code : String
  LineEnding : String
  Meta : Option Meta
  Mime : String
  Name : String
  Path : String
  Pos : Option Pos
  Tags : List String
  TypeName : String
  Result : String
  deriving DecidableEq

/-- One frame in memory. -/
structure Message where
  Cid : Int
  Cmd : String
  Info : Info
  deriving DecidableEq

/-- The zero value of `Info`. -/
def Info.zero : Info :=
  { Code := "", LineEnding := "", Meta := none, Mime := "", Name := "", Path := "",
    Pos := none, Tags := [], TypeName := "", Result := "" }

/-- The zero value of `Message` (`var m Message`). -/
def Message.zero : Message := { Cid := 0, Cmd := "", Info := Info.zero }

/-- Case folding under which `json.Unmarshal` matches an object key with a field
name: ASCII letters, the Kelvin sign and the long s. -/
def foldChar (c : Char) : Char :=
  if 65 ≤ c.toNat ∧ c.toNat ≤ 90 then Char.ofNat (c.toNat + 32)
  else if c.toNat = 0x212A then 'k'
  else if c.toNat = 0x17F then 's'
  else c

/-- Whether the object key `key` selects the field called `name` (a lower-case name). -/
def sameField (name : String) (key : List Char) : Bool := key.map foldChar = name.toList

/-- Decoding of a JSON value into an `int` holding `cur`. -/
def decodeInt (v : JVal) (cur : Int) : Option Int :=
  match v with
  | JVal.null => some cur
  | JVal.num lit => ParseInt lit
  | _ => none

/-- Decoding of a JSON value into a `string` holding `cur`. -/
def decodeString (v : JVal) (cur : String) : Option String :=
  match v with
  | JVal.null => some cur
  | JVal.str s => some (String.mk s)
  | _ => none

/-- Decoding of one object member into a `Meta`. -/
def decodeMetaMember (m : Meta) (kv : List Char × JVal) : Option Meta :=
  if sameField "end" kv.1 then (decodeInt kv.2 m.End).map (fun x => { m with End := x })
  else if sameField "start" kv.1 then
    (decodeInt kv.2 m.Start).map (fun x => { m with Start := x })
  else some m

/-- Decoding of a JSON value into a `*Meta` holding `cur`. -/
def decodeMeta (v : JVal) (cur : Option Meta) : Option (Option Meta) :=
  match v with
  | JVal.null => some none
  | JVal.obj ms => (ms.foldlM decodeMetaMember (cur.getD ⟨0, 0⟩)).map some
  | _ => none

/-- Decoding of one object member into a `Pos`. -/
def decodePosMember (p : Pos) (kv : List Char × JVal) : Option Pos :=
  if sameField "ch" kv.1 then (decodeInt kv.2 p.Ch).map (fun x => { p with Ch := x })
  else if sameField "line" kv.1 then
    (decodeInt kv.2 p.Line).map (fun x => { p with Line := x })
  else some p

/-- Decoding of a JSON value into a `*Pos` holding `cur`. -/
def decodePos (v : JVal) (cur : Option Pos) : Option (Option Pos) :=
  match v with
  | JVal.null => some none
  | JVal.obj ms => (ms.foldlM decodePosMember (cur.getD ⟨0, 0⟩)).map some
  | _ => none

/-- Decoding of the elements of an array into the elements of a `[]string`, `cur`
being the elements that the backing array of the slice holds (a `null` element leaves
the one it meets as it is; where the array holds none, the element is new and empty). -/
def decodeElems : List JVal → List String → Option (List String)
  | [], _ => some []
  | x :: xs, cur =>
    match decodeString x (cur.headD "") with
    | none => none
    | some s =>
      match decodeElems xs cur.tail with
      | none => none
      | some r => some (s :: r)

/-- Decoding of a JSON value into a `[]string` holding `cur`, whose backing array
holds the elements `spare` beyond the length of the slice: the new slice, and what
its backing array holds beyond its length.  An array is decoded into the backing
array from its start, the slice being cut to the number of elements read; `null` and
the empty array give a slice with no backing array. -/
def decodeTags (v : JVal) (cur spare : List String) : Option (List String × List String) :=
  match v with
  | JVal.null => some ([], [])
  | JVal.arr xs =>
    if xs.isEmpty then some ([], [])
    else
      match decodeElems xs (cur ++ spare) with
      | none => none
      | some r => some (r, (cur ++ spare).drop xs.length)
  | _ => none

/-- An `Info` while it is decoded: its fields, and the elements that the backing
array of `Tags` holds beyond the length of the slice. -/
structure InfoState where
  info : Info
  spare : List String

/-- Decoding of one object member into an `Info`; a key that selects no field is
skipped. -/
def decodeInfoMember (st : InfoState) (kv : List Char × JVal) : Option InfoState :=
  if sameField "code" kv.1 then
    (decodeString kv.2 st.info.Code).map
      (fun x => { st with info := { st.info with Code := x } })
  else if sameField "line-ending" kv.1 then
    (decodeString kv.2 st.info.LineEnding).map
      (fun x => { st with info := { st.info with LineEnding := x } })
  else if sameField "meta" kv.1 then
    (decodeMeta kv.2 st.info.Meta).map
      (fun x => { st with info := { st.info with Meta := x } })
  else if sameField "mime" kv.1 then
    (decodeString kv.2 st.info.Mime).map
      (fun x => { st with info := { st.info with Mime := x } })
  else if sameField "name" kv.1 then
    (decodeString kv.2 st.info.Name).map
      (fun x => { st with info := { st.info with Name := x } })
  else if sameField "path" kv.1 then
    (decodeString kv.2 st.info.Path).map
      (fun x => { st with info := { st.info with Path := x } })
  else if sameField "pos" kv.1 then
    (decodePos kv.2 st.info.Pos).map
      (fun x => { st with info := { st.info with Pos := x } })
  else if sameField "tags" kv.1 then
    (decodeTags kv.2 st.info.Tags st.spare).map
      (fun x => { info := { st.info with Tags := x.1 }, spare := x.2 })
  else if sameField "type-name" kv.1 then
    (decodeString kv.2 st.info.TypeName).map
      (fun x => { st with info := { st.info with TypeName := x } })
  else if sameField "result" kv.1 then
    (decodeString kv.2 st.info.Result).map
      (fun x => { st with info := { st.info with Result := x } })
  else some st

/-- Decoding of a JSON value into an `Info` holding `cur`, a value whose `Tags` has
no backing array beyond its length (the zero `Info` in the program). -/
def decodeInfo (v : JVal) (cur : Info) : Option Info :=
  match v with
  | JVal.null => some cur
  | JVal.obj ms =>
    (ms.foldlM decodeInfoMember { info := cur, spare := [] }).map InfoState.info
  | _ => none

/-- Go `json.Unmarshal(p, &x)` for `x` an `int` holding `cur`; `none` is an error. -/
def jsonUnmarshalInt (p : List Char) (cur : Int) : Option Int :=
  match parseJSON p with
  | none => none
  | some v => decodeInt v cur

/-- Go `json.Unmarshal(p, &x)` for `x` a `string` holding `cur`. -/
def jsonUnmarshalString (p : List Char) (cur : String) : Option String :=
  match parseJSON p with
  | none => none
  | some v => decodeString v cur

/-- Go `json.Unmarshal(p, &x)` for `x` an `Info` holding `cur`. -/
def jsonUnmarshalInfo (p : List Char) (cur : Info) : Option Info :=
  match parseJSON p with
  | none => none
  | some v => decodeInfo v cur

/-! ## `encoding/json`: encoding -/

/-- Lower-case hexadecimal digit. -/
def hexDigit (n : Nat) : Char := if n < 10 then Char.ofNat (48 + n) else Char.ofNat (87 + n)

/-- Encoding of one character inside a string literal, as `json.Marshal` writes it
(Go 1.22 and later): the quote and the backslash are escaped, control characters and
`<`, `>`, `&`, U+2028, U+2029 are written as escapes, every other character stands
for itself.  Earlier versions write `\u0008`, `\u000c` (and the oldest `\u0009`)
where this one writes `\b`, `\f`, `\t`; the decoder reads both forms. -/
def escapeChar (c : Char) : List Char :=
  if c = '"' then ['\\', '"']
  else if c = '\\' then ['\\', '\\']
  else if c = '\n' then ['\\', 'n']
  else if c = '\r' then ['\\', 'r']
  else if c = '\t' then ['\\', 't']
  else if c.toNat = 8 then ['\\', 'b']
  else if c.toNat = 12 then ['\\', 'f']
  else if c.toNat < 0x20 ∨ c = '<' ∨ c = '>' ∨ c = '&' then
    ['\\', 'u', '0', '0', hexDigit (c.toNat / 16), hexDigit (c.toNat % 16)]
  else if c.toNat = 0x2028 then ['\\', 'u', '2', '0', '2', '8']
  else if c.toNat = 0x2029 then ['\\', 'u', '2', '0', '2', '9']
  else [c]

/-- Encoding of the characters of a string. -/
def escape : List Char → List Char
  | [] => []
  | c :: cs => escapeChar c ++ escape cs

/-- JSON encoding of a `string`. -/
def encodeString (s : String) : List Char := '"' :: (escape s.toList ++ ['"'])

/-- Pieces joined by commas. -/
def joinComma : List (List Char) → List Char
  | [] => []
  | x :: r =>
    match r with
    | [] => x
    | _ :: _ => x ++ ',' :: joinComma r

/-- One object member: the quoted field name, a colon and the encoded value. -/
def member (name : String) (val : List Char) : List Char := encodeString name ++ ':' :: val

/-- JSON encoding of a `Meta`. -/
def encodeMeta (m : Meta) : List Char :=
  '{' :: (joinComma [member "end" (encodeInt m.End), member "start" (encodeInt m.Start)]
    ++ ['}'])

/-- JSON encoding of a `Pos`. -/
def encodePos (p : Pos) : List Char :=
  '{' :: (joinComma [member "ch" (encodeInt p.Ch), member "line" (encodeInt p.Line)]
    ++ ['}'])

/-- JSON encoding of a `[]string`. -/
def encodeTags (t : List String) : List Char := '[' :: (joinComma (t.map encodeString) ++ [']'])

/-- Member for a `string` field tagged `omitempty`. -/
def optString (name : String) (v : String) : List (List Char) :=
  if v = "" then [] else [member name (encodeString v)]

/-- Member for a `*Meta` field tagged `omitempty`. -/
def optMeta (name : String) (v : Option Meta) : List (List Char) :=
  match v with
  | none => []
  | some m => [member name (encodeMeta m)]

/-- Member for a `*Pos` field tagged `omitempty`. -/
def optPos (name : String) (v : Option Pos) : List (List Char) :=
  match v with
  | none => []
  | some p => [member name (encodePos p)]

/-- Member for a `[]string` field tagged `omitempty`. -/
def optTags (name : String) (v : List String) : List (List Char) :=
  if v.isEmpty then [] else [member name (encodeTags v)]

/-- The members of the encoding of an `Info`, in the order of the struct fields. -/
def infoMembers (i : Info) : List (List Char) :=
  optString "code" i.Code ++ optString "line-ending" i.LineEnding ++
  optMeta "meta" i.Meta ++ optString "mime" i.Mime ++ optString "name" i.Name ++
  optString "path" i.Path ++ optPos "pos" i.Pos ++ optTags "tags" i.Tags ++
  optString "type-name" i.TypeName ++ optString "result" i.Result

/-- JSON encoding of an `Info`. -/
def encodeInfo (i : Info) : List Char := '{' :: (joinComma (infoMembers i) ++ ['}'])

/-- Go `json.Marshal` of an `int`; it has no error case for this type. -/
def jsonMarshalInt (n : Int) : Option (List Char) := some (encodeInt n)

/-- Go `json.Marshal` of a `string`. -/
def jsonMarshalString (s : String) : Option (List Char) := some (encodeString s)

/-- Go `json.Marshal` of an `Info`. -/
def jsonMarshalInfo (i : Info) : Option (List Char) := some (encodeInfo i)

/-! ## The frame codec -/

/-- The constant `NumParts` of `NewMessage`. -/
def NumParts : Nat := 3

/-- The call `json.Unmarshal([]byte(parts[index]), field[index])` of `NewMessage`,
where `field` holds pointers to `m.Cid`, `m.Cmd` and `m.Info`. -/
def unmarshalField (index : Nat) (p : List Char) (m : Message) : Option Message :=
  match index with
  | 0 => (jsonUnmarshalInt p m.Cid).map (fun x => { m with Cid := x })
  | 1 => (jsonUnmarshalString p m.Cmd).map (fun x => { m with Cmd := x })
  | _ => (jsonUnmarshalInfo p m.Info).map (fun x => { m with Info := x })

/-- The loop of `NewMessage`, with `k` iterations left: `parts[index]` panics when
`index` is not below `len(parts)`; a failed `json.Unmarshal` returns `nil`. -/
def decodeLoop (parts : List (List Char)) : Nat → Nat → Message →
    Except Fault (Option Message)
  | 0, _, m => .ok (some m)
  | k + 1, index, m =>
    match parts[index]? with
    | none => .error .indexOutOfRange
    | some p =>
      match unmarshalField index p m with
      | none => .ok none
      | some m1 => decodeLoop parts k (index + 1) m1

/-- Function `NewMessage`: `.ok none` is the `nil` result, `.error _` a panic. -/
def NewMessage (s : List Char) : Except Fault (Option Message) :=
  match sliceInner (TrimSpace s) with
  | .error f => .error f
  | .ok inner => decodeLoop (SplitN inner ',' NumParts) NumParts 0 Message.zero

/-- Method `Message.ToJSON`; each failed `json.Marshal` returns the empty string. -/
def Message.ToJSON (m : Message) : List Char :=
  match jsonMarshalInt m.Cid with
  | none => []
  | some jsonCid =>
    match jsonMarshalString m.Cmd with
    | none => []
    | some jsonCmd =>
      match jsonMarshalInfo m.Info with
      | none => []
      | some jsonInfo => '[' :: (jsonCid ++ ',' :: (jsonCmd ++ ',' :: (jsonInfo ++ [']'])))

/-! ## The connection, the evaluation task and the handshake -/

/-- The message that `Send` fills in from its arguments. -/
def Send.message (cid : Int) (cmd : String) (i : Info) : Message :=
  { Cid := cid, Cmd := cmd, Info := i }

/-- Function `Send`: the bytes it writes to the connection, the encoded frame and a
newline. -/
def Send (cid : Int) (cmd : String) (i : Info) : List Char :=
  (Send.message cid cmd i).ToJSON ++ ['\n']

/-- The text `EvalHandler` substitutes for an empty `code`. -/
def placeholderText : String := "Nothing selected. Line echo not implemented yet."

/-- The payload `i` that `EvalHandler` builds for the request `m`. -/
def EvalHandler.info (m : Message) : Info :=
  let code := if m.Info.Code = "" then placeholderText else m.Info.Code
  { Info.zero with Result := code, Pos := m.Info.Pos }

/-- The message that the call of `Send` in `EvalHandler` fills in. -/
def EvalHandler.response (m : Message) : Message :=
  Send.message m.Cid "editor.eval.go.result" (EvalHandler.info m)

/-- Function `EvalHandler`: the bytes it writes to the connection. -/
def EvalHandler (m : Message) : List Char :=
  Send m.Cid "editor.eval.go.result" (EvalHandler.info m)

/-- The struct `clientInfo` (its field `Type` is written `Typ`). -/
structure clientInfo where
  Name : String
  Cid : Int
  Dir : String
  Cmd : String
  Typ : String

/-- JSON encoding of a `clientInfo`; no field is optional. -/
def encodeClientInfo (c : clientInfo) : List Char :=
  '{' :: (joinComma
    [member "name" (encodeString c.Name), member "client-id" (encodeInt c.Cid),
     member "dir" (encodeString c.Dir), member "commands" (encodeString c.Cmd),
     member "type" (encodeString c.Typ)] ++ ['}'])

/-- The constant `ClientName`. -/
def ClientName : String := "LightTable-Go"

/-- The constant `ClientType`. -/
def ClientType : String := "go"

/-- Function `Start`, given `os.Args[2]` and the result of `os.Getwd` (`none` when
it fails): the bytes written to the connection, or `none` when the process exits
through `log.Fatal`. -/
def Start (arg : List Char) (pwd : Option String) : Option (List Char) :=
  match Atoi arg with
  | none => none
  | some clientId =>
    match pwd with
    | none => none
    | some dir =>
      some (encodeClientInfo
        { Name := ClientName, Cid := clientId, Dir := dir, Cmd := "editor.eval.go",
          Typ := ClientType } ++ ['\n'])

/-! ## The dispatcher -/

/-- Where the process stands: the loop of `Handle` is running, `Stop` waits for the
evaluation tasks, the process has exited, or it has stopped on a panic. -/
inductive Phase where
  | running
  | draining
  | exited
  | crashed (f : Fault)
  deriving DecidableEq

/-- The state shared by the goroutines: the flag `stop`, the counter of the wait
group `wg`, the evaluation tasks started and not yet returned, and the lines written
to the connection so far. -/
structure State where
  stop : Bool
  wg : Int
  tasks : List Message
  wire : List (List Char)
  phase : Phase

/-- The state when `Handle` is entered, the handshake line being on the wire. -/
def State.init (handshake : List Char) : State :=
  { stop := false, wg := 0, tasks := [], wire := [handshake], phase := Phase.running }

/-- What can happen next: `ReadString` fails, `ReadString` returns a line, or the
evaluation task at position `k` of the running ones returns. -/
inductive Event where
  | readError
  | line (s : List Char)
  | taskDone (k : Nat)

/-- Function `Stop` called by the dispatcher: sets the flag and waits for the
counter to be zero before `os.Exit`. -/
def Stop (st : State) : State :=
  { st with stop := true, phase := if st.wg = 0 then Phase.exited else Phase.draining }

/-- The `switch m.Cmd` of `Handle`. -/
def dispatch (st : State) (m : Message) : State :=
  if m.Cmd = "client.close" ∨ m.Cmd = "client.cancel-all" then Stop st
  else if m.Cmd = "editor.eval.go" then
    { st with wg := st.wg + 1, tasks := st.tasks ++ [m] }
  else st

/-- One iteration of the loop of `Handle` on the result of `ReadString`. -/
def Handle.iteration (st : State) (read : Option (List Char)) : State :=
  match read with
  | none => st
  | some line =>
    match NewMessage line with
    | .error f => { st with phase := Phase.crashed f }
    | .ok none => st
    | .ok (some m) => dispatch st m

/-- The return of the evaluation task at position `k`: its frame is written,
`wg.Done` decrements the counter, and a waiting `Stop` exits at zero. -/
def taskReturn (st : State) (k : Nat) : State :=
  match st.tasks[k]? with
  | none => st
  | some m =>
    { st with
      wg := st.wg - 1
      tasks := st.tasks.eraseIdx k
      wire := st.wire ++ [EvalHandler m]
      phase := if st.phase = Phase.draining ∧ st.wg - 1 = 0 then Phase.exited else st.phase }

/-- One step of the process.  The loop of `Handle` iterates only while it is running
(`for !stop`); the evaluation tasks run until the process is over. -/
def step (st : State) (e : Event) : State :=
  match e with
  | Event.readError =>
    if st.phase = Phase.running then Handle.iteration st none else st
  | Event.line s =>
    if st.phase = Phase.running then Handle.iteration st (some s) else st
  | Event.taskDone k =>
    if st.phase = Phase.running ∨ st.phase = Phase.draining then taskReturn st k else st

/-- The state after a sequence of events. -/
def run (st : State) (evs : List Event) : State := evs.foldl step st

/-! ## Auxiliary notions for the properties -/

/-- Input on which a JSON value can end: the end of the text, or one of the
characters `,`, `}` and `]`. -/
def endsValue : List Char → Bool
  | [] => true
  | c :: _ => c = ',' || c = '}' || c = ']'

/-- The parser reads the text `text`, which nests arrays and objects `k` deep, back
as the value `v`: with at least as much fuel as the text has characters, at any depth
that leaves room for `k` more, and whatever follows the text provided a value can end
there. -/
def ReadsBack (k : Nat) (text : List Char) (v : JVal) : Prop :=
  ∀ (fuel depth : Nat) (rest : List Char), text.length ≤ fuel →
    depth + k ≤ maxNestingDepth → endsValue rest = true →
    parseValue fuel depth (text ++ rest) = some (v, rest)

/-- The 64-bit range of a Go `int`. -/
def isInt64 (n : Int) : Prop := -(2 : Int) ^ 63 ≤ n ∧ n < (2 : Int) ^ 63

/-- The members of a parsed object, from a list of field names, encoded values and
parsed values. -/
def treeMembers (items : List (String × List Char × JVal)) : List (List Char × JVal) :=
  items.map (fun it => (it.1.toList, it.2.2))

/-- The name, the encoding and the parsed form of each field of a `Meta`. -/
def metaItems (m : Meta) : List (String × List Char × JVal) :=
  [("end", encodeInt m.End, JVal.num (encodeInt m.End)),
   ("start", encodeInt m.Start, JVal.num (encodeInt m.Start))]

/-- The name, the encoding and the parsed form of each field of a `Pos`. -/
def posItems (p : Pos) : List (String × List Char × JVal) :=
  [("ch", encodeInt p.Ch, JVal.num (encodeInt p.Ch)),
   ("line", encodeInt p.Line, JVal.num (encodeInt p.Line))]

/-- The item of a `string` field tagged `omitempty`. -/
def strItem (name : String) (v : String) : List (String × List Char × JVal) :=
  if v = "" then [] else [(name, encodeString v, JVal.str v.toList)]

/-- The item of a `*Meta` field tagged `omitempty`. -/
def metaItem (name : String) (v : Option Meta) : List (String × List Char × JVal) :=
  match v with
  | none => []
  | some m => [(name, encodeMeta m, JVal.obj (treeMembers (metaItems m)))]

/-- The item of a `*Pos` field tagged `omitempty`. -/
def posItem (name : String) (v : Option Pos) : List (String × List Char × JVal) :=
  match v with
  | none => []
  | some p => [(name, encodePos p, JVal.obj (treeMembers (posItems p)))]

/-- The item of a `[]string` field tagged `omitempty`. -/
def tagsItem (name : String) (v : List String) : List (String × List Char × JVal) :=
  if v.isEmpty then []
  else [(name, encodeTags v, JVal.arr (v.map (fun s => JVal.str s.toList)))]

/-- The name, the encoding and the parsed form of each field of an `Info` that is
written. -/
def infoItems (i : Info) : List (String × List Char × JVal) :=
  strItem "code" i.Code ++ strItem "line-ending" i.LineEnding ++
  metaItem "meta" i.Meta ++ strItem "mime" i.Mime ++ strItem "name" i.Name ++
  strItem "path" i.Path ++ posItem "pos" i.Pos ++ tagsItem "tags" i.Tags ++
  strItem "type-name" i.TypeName ++ strItem "result" i.Result

/-- The name, the encoding and the parsed form of each field of a `clientInfo`. -/
def clientItems (c : clientInfo) : List (String × List Char × JVal) :=
  [("name", encodeString c.Name, JVal.str c.Name.toList),
   ("client-id", encodeInt c.Cid, JVal.num (encodeInt c.Cid)),
   ("dir", encodeString c.Dir, JVal.str c.Dir.toList),
   ("commands", encodeString c.Cmd, JVal.str c.Cmd.toList),
   ("type", encodeString c.Typ, JVal.str c.Typ.toList)]

/-- A payload whose integers fit a Go `int`. -/
def Info.Valid (i : Info) : Prop :=
  (∀ m, i.Meta = some m → isInt64 m.End ∧ isInt64 m.Start) ∧
  (∀ p, i.Pos = some p → isInt64 p.Ch ∧ isInt64 p.Line)

/-- A message whose integers fit a Go `int`. -/
def Message.Valid (m : Message) : Prop := isInt64 m.Cid ∧ m.Info.Valid

/-- What every reachable state of the process satisfies: the counter of the wait
group is the number of running evaluation tasks, and each of them was started for
the command `editor.eval.go`. -/
def State.Inv (st : State) : Prop :=
  st.wg = (st.tasks.length : Int) ∧ ∀ m ∈ st.tasks, m.Cmd = "editor.eval.go"

/-! ## Properties: slicing and trimming -/

theorem byteLen_cons (c : Char) (s : List Char) : byteLen (c :: s) = runeLen c + byteLen s := by
  simp [byteLen]

theorem byteLen_append (s t : List Char) : byteLen (s ++ t) = byteLen s + byteLen t := by
  simp [byteLen]

theorem runeLen_pos (c : Char) : 1 ≤ runeLen c := by
  unfold runeLen
  split_ifs <;> omega

theorem dropLastByte_append_single (s : List Char) (b : Char) (hb : b.toNat < 0x80) :
    dropLastByte (s ++ [b]) = s := by
  simp [dropLastByte, dropFirstByte, hb]

/-- Slicing a text of at least two characters whose first and last characters are
one byte long leaves the text between them. -/
theorem sliceInner_ascii_ends (a b : Char) (body : List Char)
    (ha : a.toNat < 0x80) (hb : b.toNat < 0x80) :
    sliceInner (a :: (body ++ [b])) = .ok body := by
  have h1 := runeLen_pos a
  have h2 := runeLen_pos b
  have hlen : ¬ byteLen (a :: (body ++ [b])) < 2 := by
    rw [byteLen_cons, byteLen_append, byteLen_cons]
    omega
  simp only [sliceInner, hlen, if_false, dropFirstByte, ha, if_true]
  rw [dropLastByte_append_single _ _ hb]

/-- Trimming leaves a text alone when neither its first nor its last character is
white space. -/
theorem TrimSpace_ends (a b : Char) (body : List Char)
    (ha : isSpace a = false) (hb : isSpace b = false) :
    TrimSpace (a :: (body ++ [b])) = a :: (body ++ [b]) := by
  unfold TrimSpace
  have h1 : (a :: (body ++ [b])).dropWhile isSpace = a :: (body ++ [b]) := by
    simp [List.dropWhile, ha]
  rw [h1]
  have h2 : (a :: (body ++ [b])).reverse = b :: (a :: body).reverse := by simp
  rw [h2]
  have h3 : (b :: (a :: body).reverse).dropWhile isSpace = b :: (a :: body).reverse := by
    simp [List.dropWhile, hb]
  rw [h3]
  simp

/-! ## Properties: the decoder `NewMessage` -/

/-- The loop of `NewMessage` on exactly three parts: a message when the three calls
of `json.Unmarshal` succeed, `nil` as soon as one fails. -/
theorem decodeLoop_three (p0 p1 p2 : List Char) :
    decodeLoop [p0, p1, p2] NumParts 0 Message.zero =
      match jsonUnmarshalInt p0 0 with
      | none => .ok none
      | some cid =>
        match jsonUnmarshalString p1 "" with
        | none => .ok none
        | some cmd =>
          match jsonUnmarshalInfo p2 Info.zero with
          | none => .ok none
          | some info => .ok (some { Cid := cid, Cmd := cmd, Info := info }) := by
  simp only [NumParts, decodeLoop, unmarshalField, Message.zero, List.getElem?_cons_zero,
    List.getElem?_cons_succ]
  cases jsonUnmarshalInt p0 0 with
  | none => rfl
  | some cid =>
    simp only [Option.map_some']
    cases jsonUnmarshalString p1 "" with
    | none => rfl
    | some cmd =>
      simp only [Option.map_some']
      cases jsonUnmarshalInfo p2 Info.zero with
      | none => rfl
      | some info => rfl

/-- The result of `NewMessage` on a line whose trimmed text has a one-byte first and
a one-byte last character: the loop run on the pieces of the text between them. -/
theorem NewMessage_of_trimmed (s : List Char) (a b : Char) (body : List Char)
    (hs : TrimSpace s = a :: (body ++ [b])) (ha : a.toNat < 0x80) (hb : b.toNat < 0x80) :
    NewMessage s = decodeLoop (SplitN body ',' NumParts) NumParts 0 Message.zero := by
  unfold NewMessage
  rw [hs, sliceInner_ascii_ends a b body ha hb]

/-- Claim C2, refuted as stated: a line that starts with `(` and ends with `)`
instead of the brackets is decoded into a message. -/
theorem C2_unbracketed_line_decodes :
    (TrimSpace "(1,\"a\",\x7b\x7d)\n".toList).head? = some '(' ∧
    (TrimSpace "(1,\"a\",\x7b\x7d)\n".toList).getLast? = some ')' ∧
    NewMessage "(1,\"a\",\x7b\x7d)\n".toList
      = .ok (some { Cid := 1, Cmd := "a", Info := Info.zero }) :=
  ⟨rfl, rfl, rfl⟩

/-- Claim C2, amended: `NewMessage` does not look at the first and the last character
of the trimmed line.  When both are one byte long, the result is the result for the
same text with `[` and `]` in their place, so a line lacking a bracket returns `nil`
exactly when the bracketed line with the same interior does. -/
theorem C2_brackets_not_checked (s : List Char) (a b : Char) (body : List Char)
    (hs : TrimSpace s = a :: (body ++ [b])) (ha : a.toNat < 0x80) (hb : b.toNat < 0x80) :
    NewMessage s = NewMessage ('[' :: (body ++ [']'])) := by
  rw [NewMessage_of_trimmed s a b body hs ha hb]
  have ht : TrimSpace ('[' :: (body ++ [']'])) = '[' :: (body ++ [']']) :=
    TrimSpace_ends '[' ']' body (by decide) (by decide)
  rw [NewMessage_of_trimmed _ '[' ']' body ht (by decide) (by decide)]

/-- Witness of `C2_brackets_not_checked`: the line `(1,"a",{})`. -/
theorem C2_brackets_not_checked_witness :
    NewMessage "(1,\"a\",\x7b\x7d)\n".toList = NewMessage "[1,\"a\",\x7b\x7d]".toList :=
  C2_brackets_not_checked "(1,\"a\",\x7b\x7d)\n".toList '(' ')' "1,\"a\",\x7b\x7d".toList
    rfl (by decide) (by decide)

/-- Claim C3, on the code: `NewMessage` panics on short input.  The slice expression
fails on the empty line, on a white-space line and on a one-character line; the index
expression `parts[index]` fails on a bracketed line with fewer than three parts whose
parts parse.  A panic ends the process, hence the dispatcher loop. -/
theorem C3_short_input_panics :
    NewMessage [] = .error Fault.sliceBounds ∧
    NewMessage "\n".toList = .error Fault.sliceBounds ∧
    NewMessage "  \n".toList = .error Fault.sliceBounds ∧
    NewMessage "[\n".toList = .error Fault.sliceBounds ∧
    NewMessage "[1]\n".toList = .error Fault.indexOutOfRange ∧
    NewMessage "[1,\"editor.eval.go\"]\n".toList = .error Fault.indexOutOfRange ∧
    (step (State.init []) (Event.line "\n".toList)).phase
      = Phase.crashed Fault.sliceBounds ∧
    (step (State.init []) (Event.line "[1]\n".toList)).phase
      = Phase.crashed Fault.indexOutOfRange :=
  ⟨rfl, rfl, rfl, rfl, rfl, rfl, rfl, rfl⟩

/-- What `json.Unmarshal` into an `int` accepts: the literal `null`, which leaves the
value as it is, or a number literal that is an integer numeral in the range. -/
theorem jsonUnmarshalInt_some (p : List Char) (cur x : Int)
    (h : jsonUnmarshalInt p cur = some x) :
    (parseJSON p = some JVal.null ∧ x = cur) ∨
    (∃ lit, parseJSON p = some (JVal.num lit) ∧ ParseInt lit = some x) := by
  unfold jsonUnmarshalInt at h
  cases hp : parseJSON p with
  | none => rw [hp] at h; cases h
  | some v =>
    rw [hp] at h
    cases v with
    | null => exact Or.inl ⟨rfl, (Option.some.inj h).symm⟩
    | num lit => exact Or.inr ⟨lit, rfl, h⟩
    | bool b => cases h
    | str t => cases h
    | arr xs => cases h
    | obj ms => cases h

/-- What `json.Unmarshal` into a `string` accepts: the literal `null`, which leaves
the value as it is, or a string literal. -/
theorem jsonUnmarshalString_some (p : List Char) (cur x : String)
    (h : jsonUnmarshalString p cur = some x) :
    (parseJSON p = some JVal.null ∧ x = cur) ∨
    (∃ t, parseJSON p = some (JVal.str t) ∧ x = String.mk t) := by
  unfold jsonUnmarshalString at h
  cases hp : parseJSON p with
  | none => rw [hp] at h; cases h
  | some v =>
    rw [hp] at h
    cases v with
    | null => exact Or.inl ⟨rfl, (Option.some.inj h).symm⟩
    | str t => exact Or.inr ⟨t, rfl, (Option.some.inj h).symm⟩
    | bool b => cases h
    | num lit => cases h
    | arr xs => cases h
    | obj ms => cases h

/-- What `json.Unmarshal` into an `Info` accepts: the literal `null`, which leaves
the value as it is, or an object whose members decode. -/
theorem jsonUnmarshalInfo_some (p : List Char) (cur x : Info)
    (h : jsonUnmarshalInfo p cur = some x) :
    (parseJSON p = some JVal.null ∧ x = cur) ∨
    (∃ ms, parseJSON p = some (JVal.obj ms) ∧ decodeInfo (JVal.obj ms) cur = some x) := by
  unfold jsonUnmarshalInfo at h
  cases hp : parseJSON p with
  | none => rw [hp] at h; cases h
  | some v =>
    rw [hp] at h
    cases v with
    | null => exact Or.inl ⟨rfl, (Option.some.inj h).symm⟩
    | obj ms => exact Or.inr ⟨ms, rfl, h⟩
    | bool b => cases h
    | num lit => cases h
    | str t => cases h
    | arr xs => cases h

/-- Claim C4, refuted as stated: on the line `[null,null,null]` no part is a JSON
integer, a JSON string or a JSON object (each is the literal `null`), and `NewMessage`
returns a message, the zero message; likewise `[null,"a",{}]` and `[1,"a",null]`. -/
theorem C4_null_parts_decode :
    parseJSON "null".toList = some JVal.null ∧
    NewMessage "[null,null,null]\n".toList = .ok (some Message.zero) ∧
    NewMessage "[null,\"a\",\x7b\x7d]\n".toList
      = .ok (some { Cid := 0, Cmd := "a", Info := Info.zero }) ∧
    NewMessage "[1,\"a\",null]\n".toList
      = .ok (some { Cid := 1, Cmd := "a", Info := Info.zero }) :=
  ⟨rfl, rfl, rfl, rfl⟩

/-- Claim C4, amended: on a bracketed line whose interior splits into three parts,
`NewMessage` returns a message only if the first part is a JSON text that is an
integer numeral in the range of `int` or the literal `null`, the second a JSON string
or `null`, and the third a JSON object whose members decode or `null`; the message
then holds exactly the three decoded values, a `null` part leaving its field at the
zero value.  If `json.Unmarshal` rejects any of the three parts the result is `nil`,
never a partly filled message and never a panic.  An id written as a quoted string or
as a number with a fraction is rejected. -/
theorem C4_decode_all_or_nothing (s body p0 p1 p2 : List Char)
    (hs : TrimSpace s = '[' :: (body ++ [']']))
    (hp : SplitN body ',' NumParts = [p0, p1, p2]) :
    (∀ m, NewMessage s = .ok (some m) →
      (jsonUnmarshalInt p0 0 = some m.Cid ∧ jsonUnmarshalString p1 "" = some m.Cmd ∧
        jsonUnmarshalInfo p2 Info.zero = some m.Info) ∧
      ((parseJSON p0 = some JVal.null ∧ m.Cid = 0) ∨
        (∃ lit, parseJSON p0 = some (JVal.num lit) ∧ ParseInt lit = some m.Cid)) ∧
      ((parseJSON p1 = some JVal.null ∧ m.Cmd = "") ∨
        (∃ t, parseJSON p1 = some (JVal.str t) ∧ m.Cmd = String.mk t)) ∧
      ((parseJSON p2 = some JVal.null ∧ m.Info = Info.zero) ∨
        (∃ ms, parseJSON p2 = some (JVal.obj ms) ∧
          decodeInfo (JVal.obj ms) Info.zero = some m.Info))) ∧
    ((jsonUnmarshalInt p0 0 = none ∨ jsonUnmarshalString p1 "" = none ∨
      jsonUnmarshalInfo p2 Info.zero = none) → NewMessage s = .ok none) ∧
    (NewMessage s = .ok none ∨ ∃ m, NewMessage s = .ok (some m)) ∧
    jsonUnmarshalInt "\"1\"".toList 0 = none ∧ jsonUnmarshalInt "1.5".toList 0 = none := by
  have h := NewMessage_of_trimmed s '[' ']' body hs (by decide) (by decide)
  rw [hp, decodeLoop_three] at h
  rw [h]
  refine ⟨?_, ?_, ?_, rfl, rfl⟩
  · intro m hm
    cases h0 : jsonUnmarshalInt p0 0 with
    | none => simp [h0] at hm
    | some cid =>
      cases h1 : jsonUnmarshalString p1 "" with
      | none => simp [h0, h1] at hm
      | some cmd =>
        cases h2 : jsonUnmarshalInfo p2 Info.zero with
        | none => simp [h0, h1, h2] at hm
        | some info =>
          simp only [h0, h1, h2, Except.ok.injEq, Option.some.injEq] at hm
          rw [← hm]
          exact ⟨⟨rfl, rfl, rfl⟩, jsonUnmarshalInt_some p0 0 cid h0,
            jsonUnmarshalString_some p1 "" cmd h1, jsonUnmarshalInfo_some p2 Info.zero info h2⟩
  · intro hfail
    cases h0 : jsonUnmarshalInt p0 0 with
    | none => rfl
    | some cid =>
      cases h1 : jsonUnmarshalString p1 "" with
      | none => rfl
      | some cmd =>
        cases h2 : jsonUnmarshalInfo p2 Info.zero with
        | none => rfl
        | some info => simp [h0, h1, h2] at hfail
  · cases jsonUnmarshalInt p0 0 with
    | none => exact Or.inl rfl
    | some cid =>
      cases jsonUnmarshalString p1 "" with
      | none => exact Or.inl rfl
      | some cmd =>
        cases jsonUnmarshalInfo p2 Info.zero with
        | none => exact Or.inl rfl
        | some info => exact Or.inr ⟨_, rfl⟩

/-- Witness of `C4_decode_all_or_nothing`: the line `["1","a",{}]`, whose id is a
quoted string, gives `nil`. -/
theorem C4_decode_all_or_nothing_witness :
    NewMessage "[\"1\",\"a\",\x7b\x7d]\n".toList = .ok none :=
  (C4_decode_all_or_nothing "[\"1\",\"a\",\x7b\x7d]\n".toList "\"1\",\"a\",\x7b\x7d".toList
    "\"1\"".toList "\"a\"".toList "\x7b\x7d".toList rfl rfl).2.1 (Or.inl rfl)

/-! ## Properties: the dispatcher and the evaluation task -/

theorem State.init_inv (handshake : List Char) : (State.init handshake).Inv := by
  simp [State.Inv, State.init]

theorem dispatch_inv (st : State) (m : Message) (h : st.Inv) : (dispatch st m).Inv := by
  unfold dispatch
  split_ifs with h1 h2
  · exact h
  · refine ⟨?_, ?_⟩
    · simp [h.1]
    · intro x hx
      simp only [List.mem_append, List.mem_singleton] at hx
      rcases hx with hx | hx
      · exact h.2 x hx
      · rw [hx]; exact h2
  · exact h

theorem iteration_inv (st : State) (r : Option (List Char)) (h : st.Inv) :
    (Handle.iteration st r).Inv := by
  unfold Handle.iteration
  cases r with
  | none => exact h
  | some l =>
    simp only
    cases NewMessage l with
    | error f => exact h
    | ok v =>
      cases v with
      | none => exact h
      | some m => exact dispatch_inv st m h

theorem taskReturn_inv (st : State) (k : Nat) (h : st.Inv) : (taskReturn st k).Inv := by
  unfold taskReturn
  cases hk : st.tasks[k]? with
  | none => exact h
  | some m =>
    have hlt : k < st.tasks.length := by
      rcases List.getElem?_eq_some.mp hk with ⟨hlt, _⟩
      exact hlt
    refine ⟨?_, ?_⟩
    · simp only [List.length_eraseIdx_of_lt hlt, h.1]
      omega
    · intro x hx
      exact h.2 x (List.mem_of_mem_eraseIdx hx)

theorem step_inv (st : State) (e : Event) (h : st.Inv) : (step st e).Inv := by
  unfold step
  cases e with
  | readError => simp only; split_ifs; exacts [iteration_inv st none h, h]
  | line s => simp only; split_ifs; exacts [iteration_inv st (some s) h, h]
  | taskDone k => simp only; split_ifs; exacts [taskReturn_inv st k h, h]

theorem run_inv (evs : List Event) (st : State) (h : st.Inv) : (run st evs).Inv := by
  induction evs generalizing st with
  | nil => exact h
  | cons e es ih => exact ih (step st e) (step_inv st e h)

/-- Claim C6: for every request `m` that the dispatcher has handed to an evaluation
task, in any reachable state and whatever the other running tasks are, the message
that `EvalHandler` passes to `Send` has the id of `m` and the command of `m` followed
by `.result`, and the line written is the encoding of that message. -/
theorem C6_response_correlates (handshake : List Char) (evs : List Event) (m : Message)
    (hm : m ∈ (run (State.init handshake) evs).tasks) :
    (EvalHandler.response m).Cid = m.Cid ∧
    (EvalHandler.response m).Cmd = m.Cmd ++ ".result" ∧
    EvalHandler m = (EvalHandler.response m).ToJSON ++ ['\n'] := by
  have hcmd := (run_inv evs _ (State.init_inv handshake)).2 m hm
  refine ⟨rfl, ?_, rfl⟩
  rw [hcmd]
  rfl

/-- Witness of `C6_response_correlates`: two requests in flight, the second one
answered. -/
theorem C6_response_correlates_witness :
    (EvalHandler.response { Cid := 2, Cmd := "editor.eval.go", Info := Info.zero }).Cid = 2 ∧
    (EvalHandler.response { Cid := 2, Cmd := "editor.eval.go", Info := Info.zero }).Cmd
      = "editor.eval.go" ++ ".result" ∧
    EvalHandler { Cid := 2, Cmd := "editor.eval.go", Info := Info.zero }
      = (EvalHandler.response { Cid := 2, Cmd := "editor.eval.go", Info := Info.zero }).ToJSON
        ++ ['\n'] :=
  C6_response_correlates []
    [Event.line "[1,\"editor.eval.go\",\x7b\x7d]\n".toList,
     Event.line "[2,\"editor.eval.go\",\x7b\x7d]\n".toList]
    { Cid := 2, Cmd := "editor.eval.go", Info := Info.zero }
    (List.mem_cons_of_mem _ (List.mem_singleton.mpr rfl))

/-- Claim C7: the payload `EvalHandler` sends has `result` equal to the `code` of the
request when that is not empty and to the placeholder text, which is not empty, when
it is; it has the `pos` of the request and no other field.  The request payload
`{"code":"x+1","pos":{"line":0,"ch":2}}` gives the response payload
`{"result":"x+1","pos":{"line":0,"ch":2}}`, written on the wire with its members in
the order of the struct fields. -/
theorem C7_result_payload (m : Message) :
    ((EvalHandler.info m).Result
        = if m.Info.Code = "" then placeholderText else m.Info.Code) ∧
    placeholderText ≠ "" ∧ (EvalHandler.info m).Result ≠ "" ∧
    (EvalHandler.info m).Pos = m.Info.Pos ∧
    (EvalHandler.info m).Code = "" ∧ (EvalHandler.info m).LineEnding = "" ∧
    (EvalHandler.info m).Meta = none ∧ (EvalHandler.info m).Mime = "" ∧
    (EvalHandler.info m).Name = "" ∧ (EvalHandler.info m).Path = "" ∧
    (EvalHandler.info m).Tags = [] ∧ (EvalHandler.info m).TypeName = "" ∧
    EvalHandler m = Send m.Cid "editor.eval.go.result" (EvalHandler.info m) ∧
    (∀ req, jsonUnmarshalInfo
        "\x7b\"code\":\"x+1\",\"pos\":\x7b\"line\":0,\"ch\":2\x7d\x7d".toList Info.zero
        = some req →
      m.Info = req →
      jsonUnmarshalInfo
        "\x7b\"result\":\"x+1\",\"pos\":\x7b\"line\":0,\"ch\":2\x7d\x7d".toList Info.zero
        = some (EvalHandler.info m) ∧
      jsonMarshalInfo (EvalHandler.info m)
        = some "\x7b\"pos\":\x7b\"ch\":2,\"line\":0\x7d,\"result\":\"x+1\"\x7d".toList) := by
  refine ⟨rfl, by decide, ?_, rfl, rfl, rfl, rfl, rfl, rfl, rfl, rfl, rfl, rfl, ?_⟩
  · show (if m.Info.Code = "" then placeholderText else m.Info.Code) ≠ ""
    split_ifs with h
    · decide
    · exact h
  · intro req hreq hm
    have h1 : jsonUnmarshalInfo
        "\x7b\"code\":\"x+1\",\"pos\":\x7b\"line\":0,\"ch\":2\x7d\x7d".toList Info.zero
        = some { Info.zero with Code := "x+1", Pos := some { Ch := 2, Line := 0 } } := rfl
    rw [h1] at hreq
    have h2 : m.Info = { Info.zero with Code := "x+1", Pos := some { Ch := 2, Line := 0 } } := by
      rw [hm]; exact (Option.some.inj hreq).symm
    have h3 : EvalHandler.info m
        = { Info.zero with Result := "x+1", Pos := some { Ch := 2, Line := 0 } } := by
      unfold EvalHandler.info
      rw [h2]
      rfl
    rw [h3]
    exact ⟨rfl, rfl⟩

/-- Witness of `C7_result_payload`: the request `[7,"editor.eval.go",{"code":"x+1",
"pos":{"line":0,"ch":2}}]`. -/
theorem C7_result_payload_witness :
    jsonUnmarshalInfo
      "\x7b\"result\":\"x+1\",\"pos\":\x7b\"line\":0,\"ch\":2\x7d\x7d".toList Info.zero
      = some (EvalHandler.info
          { Cid := 7, Cmd := "editor.eval.go",
            Info := { Info.zero with Code := "x+1", Pos := some { Ch := 2, Line := 0 } } }) :=
  ((C7_result_payload
      { Cid := 7, Cmd := "editor.eval.go",
        Info := { Info.zero with Code := "x+1", Pos := some { Ch := 2, Line := 0 } } }).2.2.2.2.2.2.2.2.2.2.2.2.2
    { Info.zero with Code := "x+1", Pos := some { Ch := 2, Line := 0 } } rfl rfl).1

/-- Claim C9: in every state `st` reached from the start of `Handle` by dispatcher
iterations and task returns, the counter of the wait group is the number of
evaluation tasks started and not yet returned, it is not negative, and it is zero
when no task is left.  From such a state: a decoded `editor.eval.go` line adds one to
the counter and starts exactly one task; the return of a task subtracts one and
removes that task; a read error, a line that gives no message, and a message with
any other command than the three known ones leave the counter, the tasks and the
flag `stop` as they are. -/
theorem C9_counter_invariant (handshake : List Char) (evs : List Event) :
    ((run (State.init handshake) evs).wg
        = ((run (State.init handshake) evs).tasks.length : Int) ∧
      0 ≤ (run (State.init handshake) evs).wg ∧
      ((run (State.init handshake) evs).tasks = [] →
        (run (State.init handshake) evs).wg = 0)) ∧
    (∀ s m, (run (State.init handshake) evs).phase = Phase.running →
      NewMessage s = .ok (some m) → m.Cmd = "editor.eval.go" →
      (step (run (State.init handshake) evs) (Event.line s)).wg
        = (run (State.init handshake) evs).wg + 1 ∧
      (step (run (State.init handshake) evs) (Event.line s)).tasks
        = (run (State.init handshake) evs).tasks ++ [m] ∧
      (step (run (State.init handshake) evs) (Event.line s)).stop
        = (run (State.init handshake) evs).stop) ∧
    (∀ k m, ((run (State.init handshake) evs).phase = Phase.running ∨
        (run (State.init handshake) evs).phase = Phase.draining) →
      (run (State.init handshake) evs).tasks[k]? = some m →
      (step (run (State.init handshake) evs) (Event.taskDone k)).wg
        = (run (State.init handshake) evs).wg - 1 ∧
      (step (run (State.init handshake) evs) (Event.taskDone k)).tasks
        = (run (State.init handshake) evs).tasks.eraseIdx k ∧
      (step (run (State.init handshake) evs) (Event.taskDone k)).wire
        = (run (State.init handshake) evs).wire ++ [EvalHandler m]) ∧
    ((step (run (State.init handshake) evs) Event.readError).wg
        = (run (State.init handshake) evs).wg ∧
      (step (run (State.init handshake) evs) Event.readError).tasks
        = (run (State.init handshake) evs).tasks ∧
      (step (run (State.init handshake) evs) Event.readError).stop
        = (run (State.init handshake) evs).stop) ∧
    (∀ s, (∀ m, NewMessage s ≠ .ok (some m)) →
      (step (run (State.init handshake) evs) (Event.line s)).wg
        = (run (State.init handshake) evs).wg ∧
      (step (run (State.init handshake) evs) (Event.line s)).tasks
        = (run (State.init handshake) evs).tasks ∧
      (step (run (State.init handshake) evs) (Event.line s)).stop
        = (run (State.init handshake) evs).stop) ∧
    (∀ s m, NewMessage s = .ok (some m) → m.Cmd ≠ "client.close" →
      m.Cmd ≠ "client.cancel-all" → m.Cmd ≠ "editor.eval.go" →
      (step (run (State.init handshake) evs) (Event.line s)).wg
        = (run (State.init handshake) evs).wg ∧
      (step (run (State.init handshake) evs) (Event.line s)).tasks
        = (run (State.init handshake) evs).tasks ∧
      (step (run (State.init handshake) evs) (Event.line s)).stop
        = (run (State.init handshake) evs).stop) := by
  have hinv := run_inv evs _ (State.init_inv handshake)
  generalize run (State.init handshake) evs = st at hinv ⊢
  refine ⟨⟨hinv.1, ?_, ?_⟩, ?_, ?_, ?_, ?_, ?_⟩
  · rw [hinv.1]; exact Int.natCast_nonneg _
  · intro h; rw [hinv.1, h]; rfl
  · intro s m hph hs hc
    have h1 : m.Cmd ≠ "client.close" := by rw [hc]; decide
    have h2 : m.Cmd ≠ "client.cancel-all" := by rw [hc]; decide
    simp [step, hph, Handle.iteration, hs, dispatch, hc]
  · intro k m hph hk
    simp [step, hph, taskReturn, hk]
  · unfold step
    simp only [Handle.iteration]
    split_ifs <;> exact ⟨rfl, rfl, rfl⟩
  · intro s hs
    unfold step
    simp only [Handle.iteration]
    split_ifs
    · cases hn : NewMessage s with
      | error f => exact ⟨rfl, rfl, rfl⟩
      | ok v =>
        cases v with
        | none => exact ⟨rfl, rfl, rfl⟩
        | some m => exact absurd hn (hs m)
    · exact ⟨rfl, rfl, rfl⟩
  · intro s m hs h1 h2 h3
    unfold step
    simp only [Handle.iteration, hs, dispatch, h1, h2, h3, or_self, if_false]
    split_ifs <;> exact ⟨rfl, rfl, rfl⟩

/-- Witness of `C9_counter_invariant`: after one evaluation request, a second one
raises the counter from one to two. -/
theorem C9_counter_invariant_witness :
    (step (run (State.init []) [Event.line "[1,\"editor.eval.go\",\x7b\x7d]\n".toList])
        (Event.line "[2,\"editor.eval.go\",\x7b\x7d]\n".toList)).wg
      = (run (State.init []) [Event.line "[1,\"editor.eval.go\",\x7b\x7d]\n".toList]).wg + 1 :=
  ((C9_counter_invariant [] [Event.line "[1,\"editor.eval.go\",\x7b\x7d]\n".toList]).2.1
    "[2,\"editor.eval.go\",\x7b\x7d]\n".toList
    { Cid := 2, Cmd := "editor.eval.go", Info := Info.zero } rfl rfl rfl).1

/-! ## Properties: string literals -/

theorem unquoteBody_skip (pre t : List Char) (acc : List Char) :
    unquoteBody (pre ++ t) pre.length acc = unquoteBody t 0 acc := by
  induction pre with
  | nil => rfl
  | cons c cs ih => simpa [unquoteBody] using ih

theorem unquoteBody_plain (c : Char) (t acc : List Char)
    (hq : c ≠ '"') (hb : c ≠ '\\') (hc : ¬ c.toNat < 0x20) :
    unquoteBody (c :: t) 0 acc = unquoteBody t 0 (acc ++ [c]) := by
  rw [unquoteBody]
  simp only [hq, hb, hc, if_false]

theorem unquoteBody_escape (pre t acc : List Char) (x : Char)
    (h : readEscape (pre ++ t) = some (x, pre.length)) :
    unquoteBody ('\\' :: (pre ++ t)) 0 acc = unquoteBody t 0 (acc ++ [x]) := by
  rw [unquoteBody]
  simp only [h, unquoteBody_skip]
  simp

theorem hex4_low : ∀ n : Fin 128,
    hex4 '0' '0' (hexDigit (n.val / 16)) (hexDigit (n.val % 16)) = some n.val := by
  decide

theorem readEscape_hex (h1 h2 h3 h4 : Char) (u : Nat) (t : List Char)
    (hu : hex4 h1 h2 h3 h4 = some u) (hs : u < 0xD800) :
    readEscape ('u' :: h1 :: h2 :: h3 :: h4 :: t) = some (Char.ofNat u, 5) := by
  have hns : ¬ (0xD800 ≤ u ∧ u < 0xE000) := by omega
  simp [readEscape, hu, hns]

theorem readEscape_simple (e x : Char) (t : List Char) (he : e ≠ 'u')
    (hx : simpleEscape e = some x) : readEscape (e :: t) = some (x, 1) := by
  simp [readEscape, he, hx]

theorem unquoteBody_simple (e x : Char) (t acc : List Char) (he : e ≠ 'u')
    (hx : simpleEscape e = some x) :
    unquoteBody ('\\' :: e :: t) 0 acc = unquoteBody t 0 (acc ++ [x]) :=
  unquoteBody_escape [e] t acc x (readEscape_simple e x t he hx)

theorem unquoteBody_hex (h1 h2 h3 h4 : Char) (u : Nat) (t acc : List Char)
    (hu : hex4 h1 h2 h3 h4 = some u) (hs : u < 0xD800) :
    unquoteBody ('\\' :: 'u' :: h1 :: h2 :: h3 :: h4 :: t) 0 acc
      = unquoteBody t 0 (acc ++ [Char.ofNat u]) :=
  unquoteBody_escape ['u', h1, h2, h3, h4] t acc _ (readEscape_hex h1 h2 h3 h4 u t hu hs)

theorem escapeChar_decode (c : Char) (t acc : List Char) :
    unquoteBody (escapeChar c ++ t) 0 acc = unquoteBody t 0 (acc ++ [c]) := by
  by_cases h1 : c = '"'
  · rw [escapeChar, if_pos h1, h1]
    exact unquoteBody_simple '"' '"' t acc (by decide) (by decide)
  by_cases h2 : c = '\\'
  · rw [escapeChar, if_neg h1, if_pos h2, h2]
    exact unquoteBody_simple '\\' '\\' t acc (by decide) (by decide)
  by_cases h3 : c = '\n'
  · rw [escapeChar, if_neg h1, if_neg h2, if_pos h3, h3]
    exact unquoteBody_simple 'n' '\n' t acc (by decide) (by decide)
  by_cases h4 : c = '\r'
  · rw [escapeChar, if_neg h1, if_neg h2, if_neg h3, if_pos h4, h4]
    exact unquoteBody_simple 'r' '\r' t acc (by decide) (by decide)
  by_cases h5 : c = '\t'
  · rw [escapeChar, if_neg h1, if_neg h2, if_neg h3, if_neg h4, if_pos h5, h5]
    exact unquoteBody_simple 't' '\t' t acc (by decide) (by decide)
  by_cases h6 : c.toNat = 8
  · have hc : c = Char.ofNat 8 := by rw [← h6, Char.ofNat_toNat]
    rw [escapeChar, if_neg h1, if_neg h2, if_neg h3, if_neg h4, if_neg h5, if_pos h6, hc]
    exact unquoteBody_simple 'b' (Char.ofNat 8) t acc (by decide) (by decide)
  by_cases h7 : c.toNat = 12
  · have hc : c = Char.ofNat 12 := by rw [← h7, Char.ofNat_toNat]
    rw [escapeChar, if_neg h1, if_neg h2, if_neg h3, if_neg h4, if_neg h5, if_neg h6,
      if_pos h7, hc]
    exact unquoteBody_simple 'f' (Char.ofNat 12) t acc (by decide) (by decide)
  by_cases h8 : c.toNat < 0x20 ∨ c = '<' ∨ c = '>' ∨ c = '&'
  · rw [escapeChar, if_neg h1, if_neg h2, if_neg h3, if_neg h4, if_neg h5, if_neg h6,
      if_neg h7, if_pos h8]
    have hlt : c.toNat < 128 := by
      rcases h8 with h | h | h | h
      · omega
      · rw [h]; decide
      · rw [h]; decide
      · rw [h]; decide
    have hx := hex4_low ⟨c.toNat, hlt⟩
    simp only at hx
    have hr := unquoteBody_hex '0' '0' (hexDigit (c.toNat / 16)) (hexDigit (c.toNat % 16))
      c.toNat t acc hx (by omega)
    rw [Char.ofNat_toNat] at hr
    exact hr
  by_cases h9 : c.toNat = 0x2028
  · have hc : c = Char.ofNat 0x2028 := by rw [← h9, Char.ofNat_toNat]
    rw [escapeChar, if_neg h1, if_neg h2, if_neg h3, if_neg h4, if_neg h5, if_neg h6,
      if_neg h7, if_neg h8, if_pos h9, hc]
    exact unquoteBody_hex '2' '0' '2' '8' 0x2028 t acc (by decide) (by decide)
  by_cases h10 : c.toNat = 0x2029
  · have hc : c = Char.ofNat 0x2029 := by rw [← h10, Char.ofNat_toNat]
    rw [escapeChar, if_neg h1, if_neg h2, if_neg h3, if_neg h4, if_neg h5, if_neg h6,
      if_neg h7, if_neg h8, if_neg h9, if_pos h10, hc]
    exact unquoteBody_hex '2' '0' '2' '9' 0x2029 t acc (by decide) (by decide)
  rw [escapeChar, if_neg h1, if_neg h2, if_neg h3, if_neg h4, if_neg h5, if_neg h6,
    if_neg h7, if_neg h8, if_neg h9, if_neg h10]
  exact unquoteBody_plain c t acc h1 h2 (fun h => h8 (Or.inl h))

theorem escape_decode (s t acc : List Char) :
    unquoteBody (escape s ++ '"' :: t) 0 acc = some (acc ++ s, t) := by
  induction s generalizing acc with
  | nil => simp [escape, unquoteBody]
  | cons c cs ih =>
    simp only [escape, List.append_assoc]
    rw [escapeChar_decode, ih]
    simp

/-! ## Properties: decimal numerals -/

theorem natDigitsAux_eq (n : Nat) : ∀ (fuel : Nat) (acc : List Char), n < fuel →
    natDigitsAux fuel n acc = natDigitsAux (n + 1) n [] ++ acc := by
  induction n using Nat.strong_induction_on with
  | _ n ih =>
    intro fuel acc hlt
    cases fuel with
    | zero => omega
    | succ f =>
      by_cases h10 : n < 10
      · simp [natDigitsAux, h10]
      · rw [natDigitsAux, if_neg h10, natDigitsAux, if_neg h10]
        have hdiv : n / 10 < n := Nat.div_lt_self (by omega) (by omega)
        rw [ih (n / 10) hdiv f _ (by omega), ih (n / 10) hdiv n [digitChar (n % 10)] hdiv]
        simp

theorem natDigits_lt (n : Nat) (h : n < 10) : natDigits n = [digitChar n] := by
  simp [natDigits, natDigitsAux, h]

theorem natDigits_ge (n : Nat) (h : ¬ n < 10) :
    natDigits n = natDigits (n / 10) ++ [digitChar (n % 10)] := by
  have hdiv : n / 10 < n := Nat.div_lt_self (by omega) (by omega)
  rw [natDigits, natDigitsAux, if_neg h, natDigitsAux_eq (n / 10) n _ hdiv]
  rfl

theorem digitChar_facts : ∀ d : Fin 10,
    isDigit (digitChar d.val) = true ∧ (digitChar d.val).toNat - 48 = d.val ∧
    (d.val ≠ 0 → digitChar d.val ≠ '0') ∧ digitChar d.val ≠ '-' ∧
    digitChar d.val ≠ '+' ∧ digitChar d.val ≠ ',' ∧ digitChar d.val ≠ '\n' ∧
    isWS (digitChar d.val) = false := by
  decide

theorem digitsVal_append (l : List Char) (c : Char) :
    digitsVal (l ++ [c]) = digitsVal l * 10 + (c.toNat - 48) := by
  simp [digitsVal]

theorem natDigits_all (n : Nat) : ∀ c ∈ natDigits n, isDigit c = true := by
  induction n using Nat.strong_induction_on with
  | _ n ih =>
    by_cases h10 : n < 10
    · rw [natDigits_lt n h10]
      intro c hc
      rw [List.mem_singleton.mp hc]
      exact (digitChar_facts ⟨n, h10⟩).1
    · rw [natDigits_ge n h10]
      intro c hc
      rcases List.mem_append.mp hc with h | h
      · exact ih (n / 10) (Nat.div_lt_self (by omega) (by omega)) c h
      · rw [List.mem_singleton.mp h]
        exact (digitChar_facts ⟨n % 10, Nat.mod_lt _ (by omega)⟩).1

theorem digitsVal_natDigits (n : Nat) : digitsVal (natDigits n) = n := by
  induction n using Nat.strong_induction_on with
  | _ n ih =>
    by_cases h10 : n < 10
    · rw [natDigits_lt n h10]
      have := (digitChar_facts ⟨n, h10⟩).2.1
      simp only at this
      simp [digitsVal, this]
    · rw [natDigits_ge n h10, digitsVal_append,
        ih (n / 10) (Nat.div_lt_self (by omega) (by omega))]
      have := (digitChar_facts ⟨n % 10, Nat.mod_lt _ (by omega)⟩).2.1
      simp only at this
      rw [this]
      omega

/-- The numeral of a number is `0`, or starts with a non-zero digit. -/
theorem natDigits_head (n : Nat) :
    (n = 0 ∧ natDigits n = ['0']) ∨
    (∃ c ds, natDigits n = c :: ds ∧ c ≠ '0' ∧ isDigit c = true) := by
  induction n using Nat.strong_induction_on with
  | _ n ih =>
    by_cases h10 : n < 10
    · by_cases h0 : n = 0
      · left; exact ⟨h0, by rw [h0]; rfl⟩
      · right
        exact ⟨digitChar n, [], natDigits_lt n h10, (digitChar_facts ⟨n, h10⟩).2.2.1 h0,
          (digitChar_facts ⟨n, h10⟩).1⟩
    · right
      rw [natDigits_ge n h10]
      rcases ih (n / 10) (Nat.div_lt_self (by omega) (by omega)) with ⟨h0, _⟩ | ⟨c, ds, h, hc⟩
      · omega
      · exact ⟨c, ds ++ [digitChar (n % 10)], by rw [h]; rfl, hc⟩

theorem takeWhile_digits (ds rest : List Char) (hd : ∀ c ∈ ds, isDigit c = true)
    (hr : endsValue rest = true) :
    (ds ++ rest).takeWhile isDigit = ds ∧ (ds ++ rest).dropWhile isDigit = rest := by
  have hrest : rest.takeWhile isDigit = [] ∧ rest.dropWhile isDigit = rest := by
    cases rest with
    | nil => simp
    | cons c r =>
      have hc : isDigit c = false := by
        simp only [endsValue, Bool.or_eq_true, decide_eq_true_eq] at hr
        rcases hr with (h | h) | h <;> rw [h] <;> decide
      simp [List.takeWhile, List.dropWhile, hc]
  induction ds with
  | nil => simpa using hrest
  | cons d ds ih =>
    have hd1 : isDigit d = true := hd d (List.mem_cons_self _ _)
    have := ih (fun c hc => hd c (List.mem_cons_of_mem _ hc))
    simp [List.takeWhile, List.dropWhile, hd1, this]

theorem lexFrac_ends (rest : List Char) (hr : endsValue rest = true) :
    lexFrac rest = some ([], rest) := by
  cases rest with
  | nil => rfl
  | cons c r =>
    have hc : c ≠ '.' := by
      simp only [endsValue, Bool.or_eq_true, decide_eq_true_eq] at hr
      rcases hr with (h | h) | h <;> rw [h] <;> decide
    simp [lexFrac, hc]

theorem lexExp_ends (rest : List Char) (hr : endsValue rest = true) :
    lexExp rest = some ([], rest) := by
  cases rest with
  | nil => rfl
  | cons c r =>
    have hc : ¬ (c = 'e' ∨ c = 'E') := by
      simp only [endsValue, Bool.or_eq_true, decide_eq_true_eq] at hr
      rcases hr with (h | h) | h <;> rw [h] <;> decide
    simp [lexExp, hc]

theorem lexInt_natDigits (n : Nat) (rest : List Char) (hr : endsValue rest = true) :
    lexInt (natDigits n ++ rest) = some (natDigits n, rest) := by
  rcases natDigits_head n with ⟨_, h⟩ | ⟨c, ds, h, hc0, hcd⟩
  · rw [h]; rfl
  · have hall := natDigits_all n
    rw [h] at hall ⊢
    have htd := takeWhile_digits ds rest (fun x hx => hall x (List.mem_cons_of_mem _ hx)) hr
    simp [lexInt, hc0, hcd, htd.1, htd.2]

theorem lexUnsigned_natDigits (n : Nat) (rest : List Char) (hr : endsValue rest = true) :
    lexUnsigned (natDigits n ++ rest) = some (natDigits n, rest) := by
  simp [lexUnsigned, lexInt_natDigits n rest hr, lexFrac_ends rest hr, lexExp_ends rest hr]

/-- The first character of the numeral of an integer: a minus sign or a digit. -/
theorem encodeInt_head (n : Int) :
    ∃ c ds, encodeInt n = c :: ds ∧ (c = '-' ∨ isDigit c = true) := by
  cases n with
  | ofNat k =>
    rcases natDigits_head k with ⟨_, h⟩ | ⟨c, ds, h, _, hcd⟩
    · exact ⟨'0', [], h, Or.inr (by decide)⟩
    · exact ⟨c, ds, h, Or.inr hcd⟩
  | negSucc k => exact ⟨'-', natDigits (k + 1), rfl, Or.inl rfl⟩

theorem isDigit_ne_minus (c : Char) (h : isDigit c = true) : c ≠ '-' := by
  intro hc; rw [hc] at h; revert h; decide

theorem lexNumber_encodeInt (n : Int) (rest : List Char) (hr : endsValue rest = true) :
    lexNumber (encodeInt n ++ rest) = some (encodeInt n, rest) := by
  cases n with
  | ofNat k =>
    show lexNumber (natDigits k ++ rest) = some (natDigits k, rest)
    have hall := natDigits_all k
    have hl := lexUnsigned_natDigits k rest hr
    rcases natDigits_head k with ⟨_, h⟩ | ⟨c, ds, h, _, _⟩
    · rw [h] at hl ⊢; simpa [lexNumber] using hl
    · rw [h] at hl hall ⊢
      have hm := isDigit_ne_minus c (hall c (List.mem_cons_self _ _))
      simpa [lexNumber, hm] using hl
  | negSucc k =>
    show lexNumber ('-' :: (natDigits (k + 1) ++ rest)) = some ('-' :: natDigits (k + 1), rest)
    simp [lexNumber, lexUnsigned_natDigits (k + 1) rest hr]

/-! ## Properties: parsing what the encoder writes -/

theorem skipWS_cons (c : Char) (r : List Char) (h : isWS c = false) :
    skipWS (c :: r) = c :: r := by
  simp [skipWS, List.dropWhile, h]

theorem isDigit_facts (c : Char) (h : c = '-' ∨ isDigit c = true) :
    isWS c = false ∧ c ≠ '{' ∧ c ≠ '[' ∧ c ≠ '"' ∧ c ≠ 't' ∧ c ≠ 'f' ∧ c ≠ 'n' := by
  rcases h with h | h
  · rw [h]; decide
  · have h1 : 48 ≤ c.toNat ∧ c.toNat ≤ 57 := by
      simpa [isDigit] using h
    refine ⟨?_, ?_, ?_, ?_, ?_, ?_, ?_⟩
    · simp only [isWS, Bool.or_eq_false_iff, decide_eq_false_iff_not]
      refine ⟨⟨⟨?_, ?_⟩, ?_⟩, ?_⟩ <;> (intro hc; rw [hc] at h1; revert h1; decide)
    all_goals (intro hc; rw [hc] at h1; revert h1; decide)

/-- The parser reads back the numeral of an integer. -/
theorem parseValue_encodeInt (n : Int) (fuel depth : Nat) (rest : List Char)
    (hr : endsValue rest = true) :
    parseValue (fuel + 1) depth (encodeInt n ++ rest)
      = some (JVal.num (encodeInt n), rest) := by
  have hl := lexNumber_encodeInt n rest hr
  rcases encodeInt_head n with ⟨c, ds, h, hc⟩
  rw [h] at hl ⊢
  have hf := isDigit_facts c hc
  rw [parseValue]
  simp only [List.cons_append] at hl ⊢
  rw [skipWS_cons c _ hf.1]
  simp only [hf.2.1, hf.2.2.1, hf.2.2.2.1, hf.2.2.2.2.1, hf.2.2.2.2.2.1, hf.2.2.2.2.2.2,
    if_false, hl]

/-- The parser reads back the encoding of a string. -/
theorem parseValue_encodeString (s : String) (fuel depth : Nat) (rest : List Char) :
    parseValue (fuel + 1) depth (encodeString s ++ rest)
      = some (JVal.str s.toList, rest) := by
  rw [parseValue]
  simp only [encodeString, List.cons_append, List.append_assoc, List.singleton_append]
  rw [skipWS_cons _ _ (by decide)]
  have h1 : ('"' : Char) ≠ '{' := by decide
  have h2 : ('"' : Char) ≠ '[' := by decide
  simp only [h1, h2, if_false, if_true, escape_decode, List.nil_append]

theorem ParseInt_encodeInt (n : Int) (h : isInt64 n) : ParseInt (encodeInt n) = some n := by
  unfold isInt64 at h
  cases n with
  | ofNat k =>
    show ParseInt (natDigits k) = some (Int.ofNat k)
    have hall := natDigits_all k
    have hval := digitsVal_natDigits k
    rcases natDigits_head k with ⟨_, hd⟩ | ⟨c, ds, hd, _, hcd⟩
    · rw [hd] at hval
      have hk : k = 0 := by rw [← hval]; rfl
      subst hk
      rfl
    · have hm : c ≠ '-' := isDigit_ne_minus c hcd
      have hp : c ≠ '+' := by intro hc; rw [hc] at hcd; revert hcd; decide
      have hs : splitSign (natDigits k) = (false, natDigits k) := by
        rw [hd]; simp [splitSign, hm, hp]
      have hall' : (natDigits k).all isDigit = true := List.all_eq_true.mpr hall
      have hne : (natDigits k).isEmpty = false := by rw [hd]; rfl
      simp only [ParseInt, hs, hall', hne, hval]
      simp only [Int.ofNat_eq_coe] at h
      norm_num at h
      simp
      omega
  | negSucc k =>
    show ParseInt ('-' :: natDigits (k + 1)) = some (Int.negSucc k)
    have hall := natDigits_all (k + 1)
    have hval := digitsVal_natDigits (k + 1)
    have hall' : (natDigits (k + 1)).all isDigit = true := List.all_eq_true.mpr hall
    have hne : (natDigits (k + 1)).isEmpty = false := by
      rcases natDigits_head (k + 1) with ⟨h0, _⟩ | ⟨c, ds, hd, _, _⟩
      · omega
      · rw [hd]; rfl
    have hs : splitSign ('-' :: natDigits (k + 1)) = (true, natDigits (k + 1)) := by
      simp [splitSign]
    simp only [ParseInt, hs, hall', hne, hval]
    have hneg : -((k + 1 : Nat) : Int) = Int.negSucc k := by
      simp [Int.negSucc_eq]
    rw [hneg]
    norm_num at h
    simp
    omega

theorem joinComma_cons_cons (x y : List Char) (r : List (List Char)) :
    joinComma (x :: y :: r) = x ++ ',' :: joinComma (y :: r) := rfl

theorem joinComma_single (x : List Char) : joinComma [x] = x := rfl

theorem parseElems_comma (p : List Char → Option (JVal × List Char)) (text : List Char)
    (v : JVal) (f : Nat) (tail : List Char) (acc : List JVal)
    (hp : p (text ++ ',' :: tail) = some (v, ',' :: tail)) :
    parseElems p (f + 1) (text ++ ',' :: tail) acc = parseElems p f tail (acc ++ [v]) := by
  rw [parseElems, hp]
  simp only [skipWS_cons ',' _ (by decide), if_true]

theorem parseElems_close (p : List Char → Option (JVal × List Char)) (text : List Char)
    (v : JVal) (f : Nat) (tail : List Char) (acc : List JVal)
    (hp : p (text ++ ']' :: tail) = some (v, ']' :: tail)) :
    parseElems p (f + 1) (text ++ ']' :: tail) acc = some (JVal.arr (acc ++ [v]), tail) := by
  rw [parseElems, hp]
  have h1 : (']' : Char) ≠ ',' := by decide
  simp only [skipWS_cons ']' _ (by decide), if_true, h1, if_false]

/-- The element loop reads back pieces joined by commas, when `p` reads back each
piece. -/
theorem parseElems_join (p : List Char → Option (JVal × List Char))
    (items : List (List Char × JVal)) (hne : items ≠ [])
    (hp : ∀ it ∈ items, ∀ rest, endsValue rest = true → p (it.1 ++ rest) = some (it.2, rest))
    (fuel : Nat) (hf : items.length ≤ fuel) (rest : List Char) (acc : List JVal) :
    parseElems p fuel (joinComma (items.map Prod.fst) ++ ']' :: rest) acc
      = some (JVal.arr (acc ++ items.map Prod.snd), rest) := by
  induction items generalizing fuel acc with
  | nil => exact absurd rfl hne
  | cons it its ih =>
    cases fuel with
    | zero => simp at hf
    | succ f =>
      cases its with
      | nil =>
        simp only [List.map_cons, List.map_nil, joinComma_single]
        exact parseElems_close p it.1 it.2 f rest acc
          (hp it (List.mem_cons_self _ _) (']' :: rest) rfl)
      | cons it2 r =>
        simp only [List.map_cons, joinComma_cons_cons, List.append_assoc, List.cons_append]
        rw [parseElems_comma p it.1 it.2 f _ acc (hp it (List.mem_cons_self _ _) (',' :: _) rfl)]
        have := ih (List.cons_ne_nil _ _)
          (fun x hx => hp x (List.mem_cons_of_mem _ hx)) f
          (by simp only [List.length_cons] at hf ⊢; omega) (acc ++ [it.2])
        simp only [List.map_cons] at this
        rw [this]
        simp

theorem parseMembers_key (p : List Char → Option (JVal × List Char)) (name : String)
    (text : List Char) (v : JVal) (f : Nat) (tail : List Char)
    (acc : List (List Char × JVal)) (hp : p (text ++ tail) = some (v, tail)) :
    parseMembers p (f + 1) (member name text ++ tail) acc =
      match skipWS tail with
      | [] => none
      | d :: r4 =>
        if d = ',' then parseMembers p f r4 (acc ++ [(name.toList, v)])
        else if d = '}' then some (JVal.obj (acc ++ [(name.toList, v)]), r4)
        else none := by
  simp only [member, encodeString, List.cons_append, List.append_assoc, List.singleton_append]
  rw [parseMembers, skipWS_cons '"' _ (by decide)]
  simp only [if_true, escape_decode, List.nil_append]
  rw [skipWS_cons ':' _ (by decide)]
  simp only [if_true, hp]

theorem parseMembers_comma (p : List Char → Option (JVal × List Char)) (name : String)
    (text : List Char) (v : JVal) (f : Nat) (tail : List Char)
    (acc : List (List Char × JVal))
    (hp : p (text ++ ',' :: tail) = some (v, ',' :: tail)) :
    parseMembers p (f + 1) (member name text ++ ',' :: tail) acc
      = parseMembers p f tail (acc ++ [(name.toList, v)]) := by
  rw [parseMembers_key p name text v f _ acc hp]
  simp only [skipWS_cons ',' _ (by decide), if_true]

theorem parseMembers_close (p : List Char → Option (JVal × List Char)) (name : String)
    (text : List Char) (v : JVal) (f : Nat) (tail : List Char)
    (acc : List (List Char × JVal))
    (hp : p (text ++ '}' :: tail) = some (v, '}' :: tail)) :
    parseMembers p (f + 1) (member name text ++ '}' :: tail) acc
      = some (JVal.obj (acc ++ [(name.toList, v)]), tail) := by
  rw [parseMembers_key p name text v f _ acc hp]
  have h1 : ('}' : Char) ≠ ',' := by decide
  simp only [skipWS_cons '}' _ (by decide), if_true, h1, if_false]

/-- The member loop reads back members joined by commas, when `p` reads back each
value. -/
theorem parseMembers_join (p : List Char → Option (JVal × List Char))
    (items : List (String × List Char × JVal)) (hne : items ≠ [])
    (hp : ∀ it ∈ items, ∀ rest, endsValue rest = true →
      p (it.2.1 ++ rest) = some (it.2.2, rest))
    (fuel : Nat) (hf : items.length ≤ fuel) (rest : List Char)
    (acc : List (List Char × JVal)) :
    parseMembers p fuel
        (joinComma (items.map (fun it => member it.1 it.2.1)) ++ '}' :: rest) acc
      = some (JVal.obj (acc ++ items.map (fun it => (it.1.toList, it.2.2))), rest) := by
  induction items generalizing fuel acc with
  | nil => exact absurd rfl hne
  | cons it its ih =>
    cases fuel with
    | zero => simp at hf
    | succ f =>
      cases its with
      | nil =>
        simp only [List.map_cons, List.map_nil, joinComma_single]
        exact parseMembers_close p it.1 it.2.1 it.2.2 f rest acc
          (hp it (List.mem_cons_self _ _) ('}' :: rest) rfl)
      | cons it2 r =>
        simp only [List.map_cons, joinComma_cons_cons, List.append_assoc, List.cons_append]
        rw [parseMembers_comma p it.1 it.2.1 it.2.2 f _ acc
          (hp it (List.mem_cons_self _ _) (',' :: _) rfl)]
        have := ih (List.cons_ne_nil _ _)
          (fun x hx => hp x (List.mem_cons_of_mem _ hx)) f
          (by simp only [List.length_cons] at hf ⊢; omega) (acc ++ [(it.1.toList, it.2.2)])
        simp only [List.map_cons] at this
        rw [this]
        simp

theorem length_le_joinComma (P : List (List Char)) (x : List Char) (hx : x ∈ P) :
    x.length ≤ (joinComma P).length := by
  induction P with
  | nil => cases hx
  | cons y r ih =>
    cases r with
    | nil =>
      rw [List.mem_singleton.mp hx]; exact Nat.le_refl _
    | cons z r' =>
      rw [joinComma_cons_cons]
      simp only [List.length_append, List.length_cons]
      rcases List.mem_cons.mp hx with h | h
      · rw [h]; omega
      · have := ih h; omega

theorem length_joinComma_ge (P : List (List Char)) : P.length ≤ (joinComma P).length + 1 := by
  induction P with
  | nil => simp
  | cons y r ih =>
    cases r with
    | nil => simp
    | cons z r' =>
      rw [joinComma_cons_cons]
      simp only [List.length_append, List.length_cons] at ih ⊢
      omega

theorem member_length (name : String) (text : List Char) :
    text.length < (member name text).length := by
  simp only [member, encodeString, List.length_append, List.length_cons, List.length_nil]
  omega

theorem member_head (name : String) (text : List Char) :
    member name text = '"' :: (escape name.toList ++ '"' :: ':' :: text) := by
  simp [member, encodeString]

theorem joinComma_head (x : List Char) (r : List (List Char)) (tail : List Char) :
    ∃ tl, joinComma (x :: r) ++ tail = x ++ tl := by
  cases r with
  | nil => exact ⟨tail, rfl⟩
  | cons y r' => exact ⟨',' :: (joinComma (y :: r') ++ tail), by simp [joinComma_cons_cons]⟩

theorem parseValue_brace (fuel depth : Nat) (X X' : List Char) (hX : X = '"' :: X')
    (hk : ¬ maxNestingDepth ≤ depth) :
    parseValue (fuel + 1) depth ('{' :: X)
      = parseMembers (parseValue fuel (depth + 1)) fuel X [] := by
  rw [parseValue, skipWS_cons '{' _ (by decide)]
  simp only [if_true, hk, if_false]
  rw [hX, skipWS_cons '"' _ (by decide)]
  have h1 : ('"' : Char) ≠ '}' := by decide
  simp only [h1, if_false]

theorem parseValue_bracket (fuel depth : Nat) (X X' : List Char) (d : Char)
    (hX : X = d :: X') (hw : isWS d = false) (hd : d ≠ ']')
    (hk : ¬ maxNestingDepth ≤ depth) :
    parseValue (fuel + 1) depth ('[' :: X)
      = parseElems (parseValue fuel (depth + 1)) fuel X [] := by
  rw [parseValue, skipWS_cons '[' _ (by decide)]
  have h0 : ('[' : Char) ≠ '{' := by decide
  simp only [h0, if_false, if_true, hk]
  rw [hX, skipWS_cons d _ hw]
  simp only [hd, if_false]

theorem ReadsBack.mono {k k' : Nat} {text : List Char} {v : JVal} (h : ReadsBack k text v)
    (hk : k ≤ k') : ReadsBack k' text v :=
  fun fuel depth rest hf hd hr => h fuel depth rest hf (by omega) hr

theorem readsBack_int (n : Int) (k : Nat) :
    ReadsBack k (encodeInt n) (JVal.num (encodeInt n)) := by
  intro fuel depth rest hf _ hr
  rcases encodeInt_head n with ⟨c, ds, h, _⟩
  cases fuel with
  | zero => rw [h] at hf; simp at hf
  | succ f => exact parseValue_encodeInt n f depth rest hr

theorem readsBack_string (s : String) (k : Nat) :
    ReadsBack k (encodeString s) (JVal.str s.toList) := by
  intro fuel depth rest hf _ _
  cases fuel with
  | zero => simp [encodeString] at hf
  | succ f => exact parseValue_encodeString s f depth rest

/-- An object whose member values are read back is read back. -/
theorem readsBack_object (k : Nat) (items : List (String × List Char × JVal))
    (hp : ∀ it ∈ items, ReadsBack k it.2.1 it.2.2) :
    ReadsBack (k + 1)
      ('{' :: (joinComma (items.map (fun it => member it.1 it.2.1)) ++ ['}']))
      (JVal.obj (items.map (fun it => (it.1.toList, it.2.2)))) := by
  intro fuel depth rest hf hdepth _
  have hk : ¬ maxNestingDepth ≤ depth := by omega
  simp only [List.length_cons, List.length_append, List.length_nil] at hf
  cases fuel with
  | zero => omega
  | succ f =>
    cases items with
    | nil =>
      simp only [List.map_nil, joinComma, List.nil_append, List.cons_append]
      rw [parseValue, skipWS_cons '{' _ (by decide)]
      simp only [if_true, hk, if_false]
      rw [skipWS_cons '}' _ (by decide)]
      simp only [if_true]
    | cons it its =>
      simp only [List.cons_append, List.append_assoc, List.singleton_append,
        List.nil_append]
      have hlen := length_joinComma_ge ((it :: its).map (fun it => member it.1 it.2.1))
      simp only [List.length_map] at hlen
      obtain ⟨tl, htl⟩ := joinComma_head (member it.1 it.2.1)
        (its.map (fun it => member it.1 it.2.1)) ('}' :: rest)
      have hX : joinComma ((it :: its).map (fun it => member it.1 it.2.1)) ++ '}' :: rest
          = '"' :: (escape it.1.toList ++ '"' :: ':' :: it.2.1 ++ tl) := by
        rw [List.map_cons, htl, member_head]
        simp
      rw [parseValue_brace f depth _ _ hX hk]
      have := parseMembers_join (parseValue f (depth + 1)) (it :: its) (List.cons_ne_nil _ _)
        (fun x hx r hr => hp x hx f (depth + 1) r (by
          have h1 := length_le_joinComma ((it :: its).map (fun it => member it.1 it.2.1))
            (member x.1 x.2.1) (List.mem_map.mpr ⟨x, hx, rfl⟩)
          have h2 := member_length x.1 x.2.1
          omega) (by omega) hr)
        f (by omega) rest []
      simpa using this

/-- An array whose elements are read back is read back. -/
theorem readsBack_array (k : Nat) (items : List (List Char × JVal))
    (hq : ∀ it ∈ items, ∃ d tl, it.1 = d :: tl ∧ isWS d = false ∧ d ≠ ']')
    (hp : ∀ it ∈ items, ReadsBack k it.1 it.2) :
    ReadsBack (k + 1) ('[' :: (joinComma (items.map Prod.fst) ++ [']']))
      (JVal.arr (items.map Prod.snd)) := by
  intro fuel depth rest hf hdepth _
  have hk : ¬ maxNestingDepth ≤ depth := by omega
  simp only [List.length_cons, List.length_append, List.length_nil] at hf
  cases fuel with
  | zero => omega
  | succ f =>
    cases items with
    | nil =>
      simp only [List.map_nil, joinComma, List.nil_append, List.cons_append]
      rw [parseValue, skipWS_cons '[' _ (by decide)]
      have h0 : ('[' : Char) ≠ '{' := by decide
      simp only [h0, if_false, if_true, hk]
      rw [skipWS_cons ']' _ (by decide)]
      simp only [if_true]
    | cons it its =>
      simp only [List.cons_append, List.append_assoc, List.singleton_append,
        List.nil_append]
      have hlen := length_joinComma_ge ((it :: its).map Prod.fst)
      simp only [List.length_map] at hlen
      obtain ⟨tl, htl⟩ := joinComma_head it.1 (its.map Prod.fst) (']' :: rest)
      obtain ⟨d, tl0, htl0, hw, hd⟩ := hq it (List.mem_cons_self _ _)
      have hX : joinComma ((it :: its).map Prod.fst) ++ ']' :: rest = d :: (tl0 ++ tl) := by
        rw [List.map_cons, htl, htl0]
        simp
      rw [parseValue_bracket f depth _ _ d hX hw hd hk]
      have := parseElems_join (parseValue f (depth + 1)) (it :: its) (List.cons_ne_nil _ _)
        (fun x hx r hr => hp x hx f (depth + 1) r (by
          have h1 := length_le_joinComma ((it :: its).map Prod.fst) x.1
            (List.mem_map.mpr ⟨x, hx, rfl⟩)
          omega) (by omega) hr)
        f (by omega) rest []
      simpa using this

theorem parseJSON_of_readsBack (k : Nat) (text : List Char) (v : JVal)
    (h : ReadsBack k text v) (hk : k ≤ maxNestingDepth) :
    parseJSON text = some v := by
  have := h (text.length + 1) 0 [] (by omega) (by omega) rfl
  rw [List.append_nil] at this
  simp [parseJSON, this, skipWS]

/-! ## Properties: the encoded payload is read back -/

theorem readsBack_meta (m : Meta) :
    ReadsBack 1 (encodeMeta m) (JVal.obj (treeMembers (metaItems m))) := by
  have h := readsBack_object 0 (metaItems m) (by
    intro it hit
    simp only [metaItems, List.mem_cons, List.mem_singleton, List.not_mem_nil, or_false] at hit
    rcases hit with h | h <;> rw [h] <;> exact readsBack_int _ _)
  exact h

theorem readsBack_pos (p : Pos) :
    ReadsBack 1 (encodePos p) (JVal.obj (treeMembers (posItems p))) := by
  have h := readsBack_object 0 (posItems p) (by
    intro it hit
    simp only [posItems, List.mem_cons, List.mem_singleton, List.not_mem_nil, or_false] at hit
    rcases hit with h | h <;> rw [h] <;> exact readsBack_int _ _)
  exact h

theorem readsBack_tags (t : List String) :
    ReadsBack 1 (encodeTags t) (JVal.arr (t.map (fun s => JVal.str s.toList))) := by
  have h := readsBack_array 0 (t.map (fun s => (encodeString s, JVal.str s.toList)))
    (by
      intro it hit
      obtain ⟨s, _, hs⟩ := List.mem_map.mp hit
      rw [← hs]
      exact ⟨'"', _, rfl, by decide, by decide⟩)
    (by
      intro it hit
      obtain ⟨s, _, hs⟩ := List.mem_map.mp hit
      rw [← hs]
      exact readsBack_string s 0)
  simp only [List.map_map] at h
  exact h

theorem readsBack_clientInfo (c : clientInfo) :
    ReadsBack 1 (encodeClientInfo c) (JVal.obj (treeMembers (clientItems c))) := by
  have h := readsBack_object 0 (clientItems c) (by
    intro it hit
    simp only [clientItems, List.mem_cons, List.mem_singleton, List.not_mem_nil,
      or_false] at hit
    rcases hit with h | h | h | h | h <;> rw [h]
    · exact readsBack_string _ _
    · exact readsBack_int _ _
    · exact readsBack_string _ _
    · exact readsBack_string _ _
    · exact readsBack_string _ _)
  exact h

theorem optString_items (name v : String) :
    optString name v = (strItem name v).map (fun it => member it.1 it.2.1) := by
  unfold optString strItem
  split_ifs <;> rfl

theorem optMeta_items (name : String) (v : Option Meta) :
    optMeta name v = (metaItem name v).map (fun it => member it.1 it.2.1) := by
  cases v <;> rfl

theorem optPos_items (name : String) (v : Option Pos) :
    optPos name v = (posItem name v).map (fun it => member it.1 it.2.1) := by
  cases v <;> rfl

theorem optTags_items (name : String) (v : List String) :
    optTags name v = (tagsItem name v).map (fun it => member it.1 it.2.1) := by
  unfold optTags tagsItem
  split_ifs <;> rfl

theorem infoMembers_items (i : Info) :
    infoMembers i = (infoItems i).map (fun it => member it.1 it.2.1) := by
  simp only [infoMembers, infoItems, List.map_append, optString_items, optMeta_items,
    optPos_items, optTags_items]

theorem readsBack_strItem (name v : String) :
    ∀ it ∈ strItem name v, ReadsBack 1 it.2.1 it.2.2 := by
  intro it hit
  unfold strItem at hit
  split_ifs at hit
  · cases hit
  · rw [List.mem_singleton.mp hit]; exact readsBack_string v 1

theorem readsBack_infoItems (i : Info) : ∀ it ∈ infoItems i, ReadsBack 1 it.2.1 it.2.2 := by
  intro it hit
  simp only [infoItems, List.mem_append] at hit
  rcases hit with ((((((((h | h) | h) | h) | h) | h) | h) | h) | h) | h
  · exact readsBack_strItem _ _ it h
  · exact readsBack_strItem _ _ it h
  · cases hm : i.Meta with
    | none => rw [hm] at h; cases h
    | some m =>
      rw [hm] at h
      rw [List.mem_singleton.mp h]; exact readsBack_meta m
  · exact readsBack_strItem _ _ it h
  · exact readsBack_strItem _ _ it h
  · exact readsBack_strItem _ _ it h
  · cases hm : i.Pos with
    | none => rw [hm] at h; cases h
    | some p =>
      rw [hm] at h
      rw [List.mem_singleton.mp h]; exact readsBack_pos p
  · unfold tagsItem at h
    split_ifs at h
    · cases h
    · rw [List.mem_singleton.mp h]; exact readsBack_tags _
  · exact readsBack_strItem _ _ it h
  · exact readsBack_strItem _ _ it h

theorem readsBack_info (i : Info) :
    ReadsBack 2 (encodeInfo i) (JVal.obj (treeMembers (infoItems i))) := by
  have h := readsBack_object 1 (infoItems i) (readsBack_infoItems i)
  rw [← infoMembers_items] at h
  exact h

/-! ## Properties: decoding the parsed payload -/

theorem decodeMeta_items (m : Meta) (h : isInt64 m.End ∧ isInt64 m.Start) :
    decodeMeta (JVal.obj (treeMembers (metaItems m))) none = some (some m) := by
  have h1 : decodeMetaMember ⟨0, 0⟩ ("end".toList, JVal.num (encodeInt m.End))
      = some ⟨m.End, 0⟩ := by
    show (decodeInt (JVal.num (encodeInt m.End)) 0).map _ = _
    simp only [decodeInt, ParseInt_encodeInt m.End h.1, Option.map_some']
  have h2 : decodeMetaMember ⟨m.End, 0⟩ ("start".toList, JVal.num (encodeInt m.Start))
      = some ⟨m.End, m.Start⟩ := by
    show (decodeInt (JVal.num (encodeInt m.Start)) 0).map _ = _
    simp only [decodeInt, ParseInt_encodeInt m.Start h.2, Option.map_some']
  simp only [decodeMeta, treeMembers, metaItems, List.map_cons, List.map_nil,
    List.foldlM_cons, List.foldlM_nil, Option.getD_none]
  rw [h1]
  simp only [Option.some_bind, Option.bind_eq_bind]
  rw [h2]
  rfl

theorem decodePos_items (p : Pos) (h : isInt64 p.Ch ∧ isInt64 p.Line) :
    decodePos (JVal.obj (treeMembers (posItems p))) none = some (some p) := by
  have h1 : decodePosMember ⟨0, 0⟩ ("ch".toList, JVal.num (encodeInt p.Ch))
      = some ⟨p.Ch, 0⟩ := by
    show (decodeInt (JVal.num (encodeInt p.Ch)) 0).map _ = _
    simp only [decodeInt, ParseInt_encodeInt p.Ch h.1, Option.map_some']
  have h2 : decodePosMember ⟨p.Ch, 0⟩ ("line".toList, JVal.num (encodeInt p.Line))
      = some ⟨p.Ch, p.Line⟩ := by
    show (decodeInt (JVal.num (encodeInt p.Line)) 0).map _ = _
    simp only [decodeInt, ParseInt_encodeInt p.Line h.2, Option.map_some']
  simp only [decodePos, treeMembers, posItems, List.map_cons, List.map_nil,
    List.foldlM_cons, List.foldlM_nil, Option.getD_none]
  rw [h1]
  simp only [Option.some_bind, Option.bind_eq_bind]
  rw [h2]
  rfl

theorem decodeElems_strings (t : List String) (cur : List String) :
    decodeElems (t.map (fun s => JVal.str s.toList)) cur = some t := by
  induction t generalizing cur with
  | nil => rfl
  | cons s r ih =>
    simp only [List.map_cons, decodeElems, decodeString, ih]
    rfl

theorem decodeTags_strings (t : List String) :
    decodeTags (JVal.arr (t.map (fun s => JVal.str s.toList))) [] [] = some (t, []) := by
  cases t with
  | nil => rfl
  | cons s r =>
    simp only [decodeTags, List.map_cons, List.isEmpty_cons, Bool.false_eq_true, if_false,
      List.append_nil]
    have h := decodeElems_strings (s :: r) []
    simp only [List.map_cons] at h
    rw [h]
    rfl

theorem foldlM_strItem (name v : String) (c r : InfoState)
    (hempty : v = "" → r = c)
    (hmem : decodeInfoMember c (name.toList, JVal.str v.toList) = some r) :
    (treeMembers (strItem name v)).foldlM decodeInfoMember c = some r := by
  unfold strItem
  split_ifs with h
  · rw [hempty h]; rfl
  · simp only [treeMembers, List.map_cons, List.map_nil, List.foldlM_cons, List.foldlM_nil]
    rw [hmem]
    rfl

theorem treeMembers_append (a b : List (String × List Char × JVal)) :
    treeMembers (a ++ b) = treeMembers a ++ treeMembers b := by
  simp [treeMembers]

theorem foldlM_metaItem (v : Option Meta) (c r : InfoState) (hnone : v = none → r = c)
    (hmem : ∀ m, v = some m →
      decodeInfoMember c ("meta".toList, JVal.obj (treeMembers (metaItems m))) = some r) :
    (treeMembers (metaItem "meta" v)).foldlM decodeInfoMember c = some r := by
  cases v with
  | none => rw [hnone rfl]; rfl
  | some m =>
    simp only [metaItem, treeMembers, List.map_cons, List.map_nil, List.foldlM_cons,
      List.foldlM_nil]
    have := hmem m rfl
    simp only [treeMembers] at this
    rw [this]
    rfl

theorem foldlM_posItem (v : Option Pos) (c r : InfoState) (hnone : v = none → r = c)
    (hmem : ∀ p, v = some p →
      decodeInfoMember c ("pos".toList, JVal.obj (treeMembers (posItems p))) = some r) :
    (treeMembers (posItem "pos" v)).foldlM decodeInfoMember c = some r := by
  cases v with
  | none => rw [hnone rfl]; rfl
  | some p =>
    simp only [posItem, treeMembers, List.map_cons, List.map_nil, List.foldlM_cons,
      List.foldlM_nil]
    have := hmem p rfl
    simp only [treeMembers] at this
    rw [this]
    rfl

theorem foldlM_tagsItem (v : List String) (c r : InfoState) (hnil : v = [] → r = c)
    (hmem : decodeInfoMember c ("tags".toList, JVal.arr (v.map (fun s => JVal.str s.toList)))
      = some r) :
    (treeMembers (tagsItem "tags" v)).foldlM decodeInfoMember c = some r := by
  unfold tagsItem
  split_ifs with h
  · rw [hnil (List.isEmpty_iff.mp h)]; rfl
  · simp only [treeMembers, List.map_cons, List.map_nil, List.foldlM_cons, List.foldlM_nil]
    rw [hmem]
    rfl

/-- Decoding the parsed encoding of a payload gives the payload back. -/
theorem decodeInfo_items (i : Info) (hv : i.Valid) :
    decodeInfo (JVal.obj (treeMembers (infoItems i))) Info.zero = some i := by
  cases i with
  | mk code le mt mime name path pos tags tn res =>
    have e1 := foldlM_strItem "code" code ⟨Info.zero, []⟩
      ⟨⟨code, "", none, "", "", "", none, [], "", ""⟩, []⟩ (by intro h; rw [h]; rfl) rfl
    have e2 := foldlM_strItem "line-ending" le
      ⟨⟨code, "", none, "", "", "", none, [], "", ""⟩, []⟩
      ⟨⟨code, le, none, "", "", "", none, [], "", ""⟩, []⟩ (by intro h; rw [h]) rfl
    have e3 := foldlM_metaItem mt
      ⟨⟨code, le, none, "", "", "", none, [], "", ""⟩, []⟩
      ⟨⟨code, le, mt, "", "", "", none, [], "", ""⟩, []⟩ (by intro h; rw [h])
      (by
        intro m hm
        show (decodeMeta _ none).map _ = _
        rw [decodeMeta_items m (hv.1 m hm), hm]
        rfl)
    have e4 := foldlM_strItem "mime" mime
      ⟨⟨code, le, mt, "", "", "", none, [], "", ""⟩, []⟩
      ⟨⟨code, le, mt, mime, "", "", none, [], "", ""⟩, []⟩ (by intro h; rw [h]) rfl
    have e5 := foldlM_strItem "name" name
      ⟨⟨code, le, mt, mime, "", "", none, [], "", ""⟩, []⟩
      ⟨⟨code, le, mt, mime, name, "", none, [], "", ""⟩, []⟩ (by intro h; rw [h]) rfl
    have e6 := foldlM_strItem "path" path
      ⟨⟨code, le, mt, mime, name, "", none, [], "", ""⟩, []⟩
      ⟨⟨code, le, mt, mime, name, path, none, [], "", ""⟩, []⟩ (by intro h; rw [h]) rfl
    have e7 := foldlM_posItem pos
      ⟨⟨code, le, mt, mime, name, path, none, [], "", ""⟩, []⟩
      ⟨⟨code, le, mt, mime, name, path, pos, [], "", ""⟩, []⟩ (by intro h; rw [h])
      (by
        intro p hp
        show (decodePos _ none).map _ = _
        rw [decodePos_items p (hv.2 p hp), hp]
        rfl)
    have e8 := foldlM_tagsItem tags
      ⟨⟨code, le, mt, mime, name, path, pos, [], "", ""⟩, []⟩
      ⟨⟨code, le, mt, mime, name, path, pos, tags, "", ""⟩, []⟩ (by intro h; rw [h])
      (by
        show (decodeTags _ [] []).map _ = _
        rw [decodeTags_strings]
        rfl)
    have e9 := foldlM_strItem "type-name" tn
      ⟨⟨code, le, mt, mime, name, path, pos, tags, "", ""⟩, []⟩
      ⟨⟨code, le, mt, mime, name, path, pos, tags, tn, ""⟩, []⟩ (by intro h; rw [h]) rfl
    have e10 := foldlM_strItem "result" res
      ⟨⟨code, le, mt, mime, name, path, pos, tags, tn, ""⟩, []⟩
      ⟨⟨code, le, mt, mime, name, path, pos, tags, tn, res⟩, []⟩ (by intro h; rw [h]) rfl
    simp only [decodeInfo, infoItems, treeMembers_append, List.foldlM_append]
    rw [e1]
    simp only [Option.some_bind, Option.bind_eq_bind]
    rw [e2]
    simp only [Option.some_bind, Option.bind_eq_bind]
    rw [e3]
    simp only [Option.some_bind, Option.bind_eq_bind]
    rw [e4]
    simp only [Option.some_bind, Option.bind_eq_bind]
    rw [e5]
    simp only [Option.some_bind, Option.bind_eq_bind]
    rw [e6]
    simp only [Option.some_bind, Option.bind_eq_bind]
    rw [e7]
    simp only [Option.some_bind, Option.bind_eq_bind]
    rw [e8]
    simp only [Option.some_bind, Option.bind_eq_bind]
    rw [e9]
    simp only [Option.some_bind, Option.bind_eq_bind]
    rw [e10]
    rfl

/-! ## Properties: characters of the encodings -/

theorem escapeChar_hex_bound (c : Char) (h : c.toNat < 0x20 ∨ c = '<' ∨ c = '>' ∨ c = '&') :
    c.toNat / 16 < 16 ∧ c.toNat % 16 < 16 := by
  have hlt : c.toNat < 128 := by
    rcases h with h | h | h | h
    · omega
    · rw [h]; decide
    · rw [h]; decide
    · rw [h]; decide
  omega

/-- The shapes of the encoding of a character: a fixed escape, a hexadecimal escape,
or the character itself when it is not a newline. -/
theorem escapeChar_cases (c : Char) :
    escapeChar c ∈ [['\\', '"'], ['\\', '\\'], ['\\', 'n'], ['\\', 'r'], ['\\', 't'],
      ['\\', 'b'], ['\\', 'f'], ['\\', 'u', '2', '0', '2', '8'],
      ['\\', 'u', '2', '0', '2', '9']] ∨
    (∃ hi lo : Fin 16,
      escapeChar c = ['\\', 'u', '0', '0', hexDigit hi.val, hexDigit lo.val]) ∨
    (escapeChar c = [c] ∧ c ≠ '\n') := by
  by_cases h1 : c = '"'
  · left; rw [escapeChar, if_pos h1]; decide
  by_cases h2 : c = '\\'
  · left; rw [escapeChar, if_neg h1, if_pos h2]; decide
  by_cases h3 : c = '\n'
  · left; rw [escapeChar, if_neg h1, if_neg h2, if_pos h3]; decide
  by_cases h4 : c = '\r'
  · left; rw [escapeChar, if_neg h1, if_neg h2, if_neg h3, if_pos h4]; decide
  by_cases h5 : c = '\t'
  · left; rw [escapeChar, if_neg h1, if_neg h2, if_neg h3, if_neg h4, if_pos h5]; decide
  by_cases h6 : c.toNat = 8
  · left
    rw [escapeChar, if_neg h1, if_neg h2, if_neg h3, if_neg h4, if_neg h5, if_pos h6]
    decide
  by_cases h7 : c.toNat = 12
  · left
    rw [escapeChar, if_neg h1, if_neg h2, if_neg h3, if_neg h4, if_neg h5, if_neg h6,
      if_pos h7]
    decide
  by_cases h8 : c.toNat < 0x20 ∨ c = '<' ∨ c = '>' ∨ c = '&'
  · right; left
    have hb := escapeChar_hex_bound c h8
    refine ⟨⟨c.toNat / 16, hb.1⟩, ⟨c.toNat % 16, hb.2⟩, ?_⟩
    rw [escapeChar, if_neg h1, if_neg h2, if_neg h3, if_neg h4, if_neg h5, if_neg h6,
      if_neg h7, if_pos h8]
  by_cases h9 : c.toNat = 0x2028
  · left
    rw [escapeChar, if_neg h1, if_neg h2, if_neg h3, if_neg h4, if_neg h5, if_neg h6,
      if_neg h7, if_neg h8, if_pos h9]
    decide
  by_cases h10 : c.toNat = 0x2029
  · left
    rw [escapeChar, if_neg h1, if_neg h2, if_neg h3, if_neg h4, if_neg h5, if_neg h6,
      if_neg h7, if_neg h8, if_neg h9, if_pos h10]
    decide
  right; right
  rw [escapeChar, if_neg h1, if_neg h2, if_neg h3, if_neg h4, if_neg h5, if_neg h6,
    if_neg h7, if_neg h8, if_neg h9, if_neg h10]
  exact ⟨rfl, h3⟩

theorem fixed_escapes_mem : ∀ l ∈ [['\\', '"'], ['\\', '\\'], ['\\', 'n'], ['\\', 'r'],
    ['\\', 't'], ['\\', 'b'], ['\\', 'f'], ['\\', 'u', '2', '0', '2', '8'],
    ['\\', 'u', '2', '0', '2', '9']], '\n' ∉ l ∧ ',' ∉ l := by
  decide

theorem hex_escape_mem : ∀ hi lo : Fin 16,
    '\n' ∉ ['\\', 'u', '0', '0', hexDigit hi.val, hexDigit lo.val] ∧
    ',' ∉ ['\\', 'u', '0', '0', hexDigit hi.val, hexDigit lo.val] := by
  decide

/-- What the encoding of a character can contain: a newline never, a comma only for
the comma itself. -/
theorem escapeChar_mem (c : Char) :
    '\n' ∉ escapeChar c ∧ (',' ∈ escapeChar c → c = ',') := by
  rcases escapeChar_cases c with h | ⟨hi, lo, h⟩ | ⟨h, hn⟩
  · have := fixed_escapes_mem _ h
    exact ⟨this.1, fun hm => absurd hm this.2⟩
  · rw [h]
    have := hex_escape_mem hi lo
    exact ⟨this.1, fun hm => absurd hm this.2⟩
  · rw [h]
    exact ⟨fun hm => hn (List.mem_singleton.mp hm).symm,
      fun hm => (List.mem_singleton.mp hm).symm⟩

theorem escape_mem (s : List Char) :
    '\n' ∉ escape s ∧ (',' ∈ escape s → ',' ∈ s) := by
  induction s with
  | nil => simp [escape]
  | cons c cs ih =>
    have hc := escapeChar_mem c
    simp only [escape, List.mem_append, List.mem_cons, not_or]
    refine ⟨⟨hc.1, ih.1⟩, ?_⟩
    intro h
    rcases h with h | h
    · exact Or.inl (hc.2 h).symm
    · exact Or.inr (ih.2 h)

theorem encodeString_mem (s : String) :
    '\n' ∉ encodeString s ∧ (',' ∈ encodeString s → ',' ∈ s.toList) := by
  have h := escape_mem s.toList
  simp only [encodeString, List.mem_cons, List.mem_append, List.mem_singleton,
    List.not_mem_nil, or_false, not_or]
  refine ⟨⟨by decide, h.1, by decide⟩, ?_⟩
  intro hm
  rcases hm with hm | hm | hm
  · exact absurd hm (by decide)
  · exact h.2 hm
  · exact absurd hm (by decide)

theorem encodeInt_mem (n : Int) : '\n' ∉ encodeInt n ∧ ',' ∉ encodeInt n := by
  have key : ∀ k, '\n' ∉ natDigits k ∧ ',' ∉ natDigits k := by
    intro k
    have hall := natDigits_all k
    constructor <;> (intro hm; have := hall _ hm; revert this; decide)
  cases n with
  | ofNat k => exact key k
  | negSucc k =>
    have := key (k + 1)
    simp only [encodeInt, List.mem_cons, not_or]
    exact ⟨⟨by decide, this.1⟩, ⟨by decide, this.2⟩⟩

theorem joinComma_newline (P : List (List Char)) (h : ∀ x ∈ P, '\n' ∉ x) :
    '\n' ∉ joinComma P := by
  induction P with
  | nil => simp [joinComma]
  | cons y r ih =>
    cases r with
    | nil => exact h y (List.mem_cons_self _ _)
    | cons z r' =>
      rw [joinComma_cons_cons]
      simp only [List.mem_append, List.mem_cons, not_or]
      exact ⟨h y (List.mem_cons_self _ _), by decide,
        ih (fun x hx => h x (List.mem_cons_of_mem _ hx))⟩

theorem member_newline (name : String) (text : List Char) (h : '\n' ∉ text) :
    '\n' ∉ member name text := by
  simp only [member, List.mem_append, List.mem_cons, not_or]
  exact ⟨(encodeString_mem name).1, by decide, h⟩

theorem braces_newline (P : List (List Char)) (h : ∀ x ∈ P, '\n' ∉ x) :
    '\n' ∉ '{' :: (joinComma P ++ ['}']) := by
  simp only [List.mem_cons, List.mem_append, List.mem_singleton, List.not_mem_nil,
    or_false, not_or]
  exact ⟨by decide, joinComma_newline P h, by decide⟩

theorem encodeMeta_newline (m : Meta) : '\n' ∉ encodeMeta m := by
  apply braces_newline
  intro x hx
  simp only [List.mem_cons, List.mem_singleton, List.not_mem_nil, or_false] at hx
  rcases hx with h | h <;> rw [h] <;> exact member_newline _ _ (encodeInt_mem _).1

theorem encodePos_newline (p : Pos) : '\n' ∉ encodePos p := by
  apply braces_newline
  intro x hx
  simp only [List.mem_cons, List.mem_singleton, List.not_mem_nil, or_false] at hx
  rcases hx with h | h <;> rw [h] <;> exact member_newline _ _ (encodeInt_mem _).1

theorem encodeTags_newline (t : List String) : '\n' ∉ encodeTags t := by
  simp only [encodeTags, List.mem_cons, List.mem_append, List.mem_singleton,
    List.not_mem_nil, or_false, not_or]
  refine ⟨by decide, joinComma_newline _ ?_, by decide⟩
  intro x hx
  obtain ⟨s, _, hs⟩ := List.mem_map.mp hx
  rw [← hs]
  exact (encodeString_mem s).1

theorem optString_newline (name v : String) : ∀ x ∈ optString name v, '\n' ∉ x := by
  intro x hx
  unfold optString at hx
  split_ifs at hx
  · cases hx
  · rw [List.mem_singleton.mp hx]; exact member_newline _ _ (encodeString_mem v).1

theorem infoMembers_newline (i : Info) : ∀ x ∈ infoMembers i, '\n' ∉ x := by
  intro x hx
  simp only [infoMembers, List.mem_append] at hx
  rcases hx with ((((((((h | h) | h) | h) | h) | h) | h) | h) | h) | h
  · exact optString_newline _ _ x h
  · exact optString_newline _ _ x h
  · cases hm : i.Meta with
    | none => rw [hm] at h; cases h
    | some m =>
      rw [hm] at h
      rw [List.mem_singleton.mp h]; exact member_newline _ _ (encodeMeta_newline m)
  · exact optString_newline _ _ x h
  · exact optString_newline _ _ x h
  · exact optString_newline _ _ x h
  · cases hm : i.Pos with
    | none => rw [hm] at h; cases h
    | some p =>
      rw [hm] at h
      rw [List.mem_singleton.mp h]; exact member_newline _ _ (encodePos_newline p)
  · unfold optTags at h
    split_ifs at h
    · cases h
    · rw [List.mem_singleton.mp h]; exact member_newline _ _ (encodeTags_newline _)
  · exact optString_newline _ _ x h
  · exact optString_newline _ _ x h

theorem encodeInfo_newline (i : Info) : '\n' ∉ encodeInfo i :=
  braces_newline _ (infoMembers_newline i)

theorem encodeClientInfo_newline (c : clientInfo) : '\n' ∉ encodeClientInfo c := by
  apply braces_newline
  intro x hx
  simp only [List.mem_cons, List.mem_singleton, List.not_mem_nil, or_false] at hx
  rcases hx with h | h | h | h | h <;> rw [h]
  · exact member_newline _ _ (encodeString_mem _).1
  · exact member_newline _ _ (encodeInt_mem _).1
  · exact member_newline _ _ (encodeString_mem _).1
  · exact member_newline _ _ (encodeString_mem _).1
  · exact member_newline _ _ (encodeString_mem _).1

/-- The text `ToJSON` builds. -/
theorem ToJSON_eq (m : Message) :
    m.ToJSON = '[' :: (encodeInt m.Cid ++ ',' :: (encodeString m.Cmd ++ ',' ::
      (encodeInfo m.Info ++ [']']))) := rfl

theorem ToJSON_newline (m : Message) : '\n' ∉ m.ToJSON := by
  rw [ToJSON_eq]
  simp only [List.mem_cons, List.mem_append, List.mem_singleton, List.not_mem_nil,
    or_false, not_or]
  exact ⟨by decide, (encodeInt_mem _).1, by decide, (encodeString_mem _).1, by decide,
    encodeInfo_newline _, by decide⟩

/-! ## Properties: the frame codec -/

theorem cut_append (a b : List Char) (sep : Char) (h : sep ∉ a) :
    cut sep (a ++ sep :: b) = some (a, b) := by
  induction a with
  | nil => simp [cut]
  | cons c cs ih =>
    have hc : c ≠ sep := fun e => h (by rw [e]; exact List.mem_cons_self _ _)
    have := ih (fun e => h (List.mem_cons_of_mem _ e))
    simp [cut, hc, this]

theorem SplitN_three (a b c : List Char) (ha : ',' ∉ a) (hb : ',' ∉ b) :
    SplitN (a ++ ',' :: (b ++ ',' :: c)) ',' NumParts = [a, b, c] := by
  simp [NumParts, SplitN, cut_append _ _ _ ha, cut_append _ _ _ hb]

theorem jsonUnmarshalInt_encodeInt (n : Int) (h : isInt64 n) (cur : Int) :
    jsonUnmarshalInt (encodeInt n) cur = some n := by
  simp only [jsonUnmarshalInt, parseJSON_of_readsBack 0 _ _ (readsBack_int n 0) (by decide), decodeInt,
    ParseInt_encodeInt n h]

theorem jsonUnmarshalString_encodeString (s : String) (cur : String) :
    jsonUnmarshalString (encodeString s) cur = some s := by
  simp only [jsonUnmarshalString, parseJSON_of_readsBack 0 _ _ (readsBack_string s 0) (by decide),
    decodeString]
  rfl

theorem jsonUnmarshalInfo_encodeInfo (i : Info) (h : i.Valid) :
    jsonUnmarshalInfo (encodeInfo i) Info.zero = some i := by
  simp only [jsonUnmarshalInfo, parseJSON_of_readsBack 2 _ _ (readsBack_info i) (by decide),
    decodeInfo_items i h]

/-- The encoded frame, as the text between the brackets. -/
theorem ToJSON_brackets (m : Message) :
    m.ToJSON = '[' :: ((encodeInt m.Cid ++ ',' :: (encodeString m.Cmd ++ ',' ::
      encodeInfo m.Info)) ++ [']']) := by
  rw [ToJSON_eq]
  simp

theorem TrimSpace_newline (a b : Char) (body : List Char)
    (ha : isSpace a = false) (hb : isSpace b = false) :
    TrimSpace (a :: (body ++ [b]) ++ ['\n']) = a :: (body ++ [b]) := by
  unfold TrimSpace
  have h1 : (a :: (body ++ [b]) ++ ['\n']).dropWhile isSpace = a :: (body ++ [b]) ++ ['\n'] := by
    simp [List.dropWhile, ha]
  rw [h1]
  have h2 : (a :: (body ++ [b]) ++ ['\n']).reverse = '\n' :: b :: (a :: body).reverse := by
    simp
  rw [h2]
  have h3 : ('\n' :: b :: (a :: body).reverse).dropWhile isSpace = b :: (a :: body).reverse := by
    have hn : isSpace '\n' = true := by decide
    simp [List.dropWhile, hb, hn]
  rw [h3]
  simp

theorem decodeLoop_ToJSON (m : Message) (hv : m.Valid) (hc : ',' ∉ m.Cmd.toList) :
    decodeLoop
      (SplitN (encodeInt m.Cid ++ ',' :: (encodeString m.Cmd ++ ',' :: encodeInfo m.Info))
        ',' NumParts) NumParts 0 Message.zero = .ok (some m) := by
  rw [SplitN_three _ _ _ (encodeInt_mem m.Cid).2 (fun h => hc ((encodeString_mem m.Cmd).2 h)),
    decodeLoop_three, jsonUnmarshalInt_encodeInt _ hv.1,
    jsonUnmarshalString_encodeString, jsonUnmarshalInfo_encodeInfo _ hv.2]

/-- Claim C1, refuted as stated: the message with command `a,b` is encoded as
`[1,"a,b",{}]`, which `NewMessage` splits inside the command and rejects. -/
theorem C1_comma_in_command_not_decoded :
    Message.ToJSON { Cid := 1, Cmd := "a,b", Info := Info.zero }
      = "[1,\"a,b\",\x7b\x7d]".toList ∧
    NewMessage (Message.ToJSON { Cid := 1, Cmd := "a,b", Info := Info.zero }) = .ok none :=
  ⟨rfl, rfl⟩

/-- Claim C1, amended: for every message whose integers fit a Go `int` and whose
command contains no comma, with any subset of the optional payload fields present,
`NewMessage` applied to the encoded frame, with or without the newline that `Send`
adds, returns that message, field for field. -/
theorem C1_round_trip (m : Message) (hv : m.Valid) (hc : ',' ∉ m.Cmd.toList) :
    NewMessage m.ToJSON = .ok (some m) ∧
    NewMessage (m.ToJSON ++ ['\n']) = .ok (some m) := by
  constructor
  · rw [NewMessage_of_trimmed m.ToJSON '[' ']' _
      (by rw [ToJSON_brackets]; exact TrimSpace_ends '[' ']' _ (by decide) (by decide))
      (by decide) (by decide)]
    exact decodeLoop_ToJSON m hv hc
  · rw [NewMessage_of_trimmed (m.ToJSON ++ ['\n']) '[' ']' _
      (by rw [ToJSON_brackets]; exact TrimSpace_newline '[' ']' _ (by decide) (by decide))
      (by decide) (by decide)]
    exact decodeLoop_ToJSON m hv hc

/-- Witness of `C1_round_trip`: a message with every kind of payload field. -/
theorem C1_round_trip_witness :
    NewMessage (Message.ToJSON
        { Cid := -42, Cmd := "editor.eval.go",
          Info := { Info.zero with
                    Code := "x := \"a\"\n", Meta := some { End := 9, Start := 0 },
                    Pos := some { Ch := 2, Line := 0 }, Tags := ["a", "b,c"] } })
      = .ok (some
        { Cid := -42, Cmd := "editor.eval.go",
          Info := { Info.zero with
                    Code := "x := \"a\"\n", Meta := some { End := 9, Start := 0 },
                    Pos := some { Ch := 2, Line := 0 }, Tags := ["a", "b,c"] } }) :=
  (C1_round_trip
    { Cid := -42, Cmd := "editor.eval.go",
      Info := { Info.zero with
                Code := "x := \"a\"\n", Meta := some { End := 9, Start := 0 },
                Pos := some { Ch := 2, Line := 0 }, Tags := ["a", "b,c"] } }
    ⟨⟨by decide, by decide⟩,
      ⟨fun m h => by
        have hm : m = { End := 9, Start := 0 } := (Option.some.inj h).symm
        rw [hm]; exact ⟨⟨by decide, by decide⟩, ⟨by decide, by decide⟩⟩,
       fun p h => by
        have hp : p = { Ch := 2, Line := 0 } := (Option.some.inj h).symm
        rw [hp]; exact ⟨⟨by decide, by decide⟩, ⟨by decide, by decide⟩⟩⟩⟩
    (by decide)).1

/-! ## Properties: what is written to the connection -/

theorem encodeInt_head_ok (n : Int) :
    ∃ d tl, encodeInt n = d :: tl ∧ isWS d = false ∧ d ≠ ']' := by
  rcases encodeInt_head n with ⟨c, ds, h, hc⟩
  refine ⟨c, ds, h, (isDigit_facts c hc).1, ?_⟩
  rcases hc with hc | hc
  · rw [hc]; decide
  · intro e; rw [e] at hc; revert hc; decide

/-- The encoded frame is read back as a JSON array of exactly three values: the
number written for the id, the command string and the payload object. -/
theorem parseJSON_ToJSON (m : Message) :
    parseJSON m.ToJSON = some (JVal.arr [JVal.num (encodeInt m.Cid),
      JVal.str m.Cmd.toList, JVal.obj (treeMembers (infoItems m.Info))]) := by
  have h := readsBack_array 2
    [(encodeInt m.Cid, JVal.num (encodeInt m.Cid)),
     (encodeString m.Cmd, JVal.str m.Cmd.toList),
     (encodeInfo m.Info, JVal.obj (treeMembers (infoItems m.Info)))]
    (by
      intro it hit
      simp only [List.mem_cons, List.mem_singleton, List.not_mem_nil, or_false] at hit
      rcases hit with h | h | h <;> rw [h]
      · exact encodeInt_head_ok m.Cid
      · exact ⟨'"', _, rfl, by decide, by decide⟩
      · exact ⟨'{', _, rfl, by decide, by decide⟩)
    (by
      intro it hit
      simp only [List.mem_cons, List.mem_singleton, List.not_mem_nil, or_false] at hit
      rcases hit with h | h | h <;> rw [h]
      · exact readsBack_int _ 2
      · exact readsBack_string _ 2
      · exact readsBack_info _)
  have h2 := parseJSON_of_readsBack 3 _ _ h (by decide)
  rw [ToJSON_eq]
  simpa [joinComma] using h2

/-- Claim C5: for every message, whatever characters its strings contain, `ToJSON`
returns `[`, the encoding of the id, `,`, the encoding of the command, `,`, the
encoding of the payload and `]`, each encoding being what `json.Marshal` returns and
a JSON text of the value; the result is not the empty string of the error branches
and contains no newline. -/
theorem C5_frame_shape (m : Message) :
    (∃ a b c, jsonMarshalInt m.Cid = some a ∧ jsonMarshalString m.Cmd = some b ∧
      jsonMarshalInfo m.Info = some c ∧
      m.ToJSON = '[' :: (a ++ ',' :: (b ++ ',' :: (c ++ [']']))) ∧
      parseJSON a = some (JVal.num (encodeInt m.Cid)) ∧
      parseJSON b = some (JVal.str m.Cmd.toList) ∧
      parseJSON c = some (JVal.obj (treeMembers (infoItems m.Info)))) ∧
    m.ToJSON ≠ [] ∧ '\n' ∉ m.ToJSON := by
  refine ⟨⟨encodeInt m.Cid, encodeString m.Cmd, encodeInfo m.Info, rfl, rfl, rfl, rfl,
    parseJSON_of_readsBack 0 _ _ (readsBack_int _ 0) (by decide),
    parseJSON_of_readsBack 0 _ _ (readsBack_string _ 0) (by decide),
    parseJSON_of_readsBack 2 _ _ (readsBack_info _) (by decide)⟩, ?_, ToJSON_newline m⟩
  rw [ToJSON_eq]
  exact List.cons_ne_nil _ _

/-- Claim C8, refuted as stated: the handshake line that `Start` writes for the
client id `7` in the directory `/w` is a JSON object, not a frame in brackets. -/
theorem C8_handshake_is_object :
    Start "7".toList (some "/w")
      = some ("\x7b\"name\":\"LightTable-Go\",\"client-id\":7,\"dir\":\"/w\"," ++
          "\"commands\":\"editor.eval.go\",\"type\":\"go\"\x7d\n").toList ∧
    ((Start "7".toList (some "/w")).map List.head?) ≠ some (some '[') :=
  ⟨rfl, by decide⟩

/-- Claim C8, amended: every line written by `Send` is a frame, the text of a JSON
array of exactly three values (the id as a JSON number written as an integer numeral,
never a string, then the command string and the payload object) wrapped in `[` and
`]`, followed by one newline, with no other newline.  The handshake line written by
`Start` is not a frame: it is the text of one JSON object, in which `client-id` is an
integer numeral, followed by one newline. -/
theorem C8_wire_lines (cid : Int) (cmd : String) (i : Info) (arg : List Char)
    (pwd : Option String) :
    (∃ a b c, Send cid cmd i = '[' :: (a ++ ',' :: (b ++ ',' :: (c ++ [']', '\n']))) ∧
      a = encodeInt cid ∧ '\n' ∉ a ∧ '\n' ∉ b ∧ '\n' ∉ c ∧
      parseJSON ('[' :: (a ++ ',' :: (b ++ ',' :: (c ++ [']']))))
        = some (JVal.arr [JVal.num a, JVal.str cmd.toList,
            JVal.obj (treeMembers (infoItems i))])) ∧
    (∀ line, Start arg pwd = some line →
      ∃ o id dir, line = o ++ ['\n'] ∧ '\n' ∉ o ∧ Atoi arg = some id ∧
        parseJSON o = some (JVal.obj
          [("name".toList, JVal.str ClientName.toList),
           ("client-id".toList, JVal.num (encodeInt id)),
           ("dir".toList, JVal.str dir),
           ("commands".toList, JVal.str "editor.eval.go".toList),
           ("type".toList, JVal.str ClientType.toList)])) := by
  constructor
  · refine ⟨encodeInt cid, encodeString cmd, encodeInfo i, ?_, rfl, (encodeInt_mem cid).1,
      (encodeString_mem cmd).1, encodeInfo_newline i, ?_⟩
    · show (Send.message cid cmd i).ToJSON ++ ['\n'] = _
      rw [ToJSON_eq]
      simp [Send.message]
    · have := parseJSON_ToJSON (Send.message cid cmd i)
      rw [ToJSON_eq] at this
      exact this
  · intro line hl
    unfold Start at hl
    cases ha : Atoi arg with
    | none => rw [ha] at hl; cases hl
    | some id =>
      cases pwd with
      | none => rw [ha] at hl; cases hl
      | some dir =>
        rw [ha] at hl
        simp only [Option.some.injEq] at hl
        refine ⟨_, id, dir.toList, hl.symm, encodeClientInfo_newline _, rfl, ?_⟩
        exact parseJSON_of_readsBack 1 _ _ (readsBack_clientInfo _) (by decide)

/-- Witness of `C8_wire_lines`: the handshake for the client id `7` in `/w`. -/
theorem C8_wire_lines_witness :
    ∃ o id dir, ("\x7b\"name\":\"LightTable-Go\",\"client-id\":7,\"dir\":\"/w\"," ++
          "\"commands\":\"editor.eval.go\",\"type\":\"go\"\x7d\n").toList = o ++ ['\n'] ∧
      '\n' ∉ o ∧ Atoi "7".toList = some id ∧
      parseJSON o = some (JVal.obj
        [("name".toList, JVal.str ClientName.toList),
         ("client-id".toList, JVal.num (encodeInt id)),
         ("dir".toList, JVal.str dir),
         ("commands".toList, JVal.str "editor.eval.go".toList),
         ("type".toList, JVal.str ClientType.toList)]) :=
  (C8_wire_lines 0 "" Info.zero "7".toList (some "/w")).2 _ rfl

/-! ## Properties: the fuel of the parser -/

theorem length_dropWhile_le (p : Char → Bool) (s : List Char) :
    (s.dropWhile p).length ≤ s.length :=
  (List.dropWhile_sublist p).length_le

theorem length_skipWS_le (s : List Char) : (skipWS s).length ≤ s.length :=
  length_dropWhile_le _ _

theorem unquoteBody_length : ∀ (s : List Char) (k : Nat) (acc t r : List Char),
    unquoteBody s k acc = some (t, r) → r.length < s.length := by
  intro s
  induction s with
  | nil => intro k acc t r h; simp [unquoteBody] at h
  | cons c cs ih =>
    intro k acc t r h
    cases k with
    | succ k' =>
      rw [unquoteBody] at h
      have := ih _ _ _ _ h
      simp only [List.length_cons]; omega
    | zero =>
      rw [unquoteBody] at h
      by_cases h1 : c = '"'
      · simp only [h1, if_true, Option.some.injEq, Prod.mk.injEq] at h
        rw [← h.2]; simp
      · simp only [h1, if_false] at h
        by_cases h2 : c = '\\'
        · simp only [h2, if_true] at h
          cases he : readEscape cs with
          | none => rw [he] at h; cases h
          | some xk =>
            obtain ⟨x, k⟩ := xk
            rw [he] at h
            have := ih _ _ _ _ h
            simp only [List.length_cons]; omega
        · simp only [h2, if_false] at h
          by_cases h3 : c.toNat < 0x20
          · simp [h3] at h
          · simp only [h3, if_false] at h
            have := ih _ _ _ _ h
            simp only [List.length_cons]; omega

theorem lexInt_length (s l r : List Char) (h : lexInt s = some (l, r)) :
    r.length ≤ s.length := by
  cases s with
  | nil => simp [lexInt] at h
  | cons c cs =>
    rw [lexInt] at h
    by_cases h0 : c = '0'
    · simp only [h0, if_true, Option.some.injEq, Prod.mk.injEq] at h
      rw [← h.2]; simp
    · simp only [h0, if_false] at h
      by_cases hd : isDigit c = true
      · simp only [hd, if_true, Option.some.injEq, Prod.mk.injEq] at h
        rw [← h.2]
        have := length_dropWhile_le isDigit cs
        simp only [List.length_cons]; omega
      · simp [hd] at h

theorem lexFrac_length (s l r : List Char) (h : lexFrac s = some (l, r)) :
    r.length ≤ s.length := by
  cases s with
  | nil => simp only [lexFrac, Option.some.injEq, Prod.mk.injEq] at h; rw [← h.2]
  | cons c cs =>
    rw [lexFrac] at h
    by_cases h0 : c = '.'
    · simp only [h0, if_true] at h
      cases he : (cs.takeWhile isDigit).isEmpty with
      | true => simp [he] at h
      | false =>
        simp only [he, Bool.false_eq_true, if_false, Option.some.injEq, Prod.mk.injEq] at h
        rw [← h.2]
        have := length_dropWhile_le isDigit cs
        simp only [List.length_cons]; omega
    · simp only [h0, if_false, Option.some.injEq, Prod.mk.injEq] at h
      rw [← h.2]

theorem lexExpDigits_length (pre s l r : List Char) (h : lexExpDigits pre s = some (l, r)) :
    r.length ≤ s.length := by
  unfold lexExpDigits at h
  cases he : (s.takeWhile isDigit).isEmpty with
  | true => simp [he] at h
  | false =>
    simp only [he, Bool.false_eq_true, if_false, Option.some.injEq, Prod.mk.injEq] at h
    rw [← h.2]
    exact length_dropWhile_le isDigit s

theorem lexExp_length (s l r : List Char) (h : lexExp s = some (l, r)) :
    r.length ≤ s.length := by
  cases s with
  | nil => simp only [lexExp, Option.some.injEq, Prod.mk.injEq] at h; rw [← h.2]
  | cons c cs =>
    simp only [lexExp] at h
    by_cases h0 : c = 'e' ∨ c = 'E'
    · simp only [h0, if_true] at h
      cases cs with
      | nil => simp at h
      | cons g r1 =>
        simp only at h
        by_cases hg : g = '+' ∨ g = '-'
        · simp only [hg, if_true] at h
          have := lexExpDigits_length _ _ _ _ h
          simp only [List.length_cons]; omega
        · simp only [hg, if_false] at h
          have := lexExpDigits_length _ _ _ _ h
          simp only [List.length_cons] at this ⊢; omega
    · simp only [h0, if_false, Option.some.injEq, Prod.mk.injEq] at h
      rw [← h.2]

theorem lexUnsigned_length (s l r : List Char) (h : lexUnsigned s = some (l, r)) :
    r.length ≤ s.length := by
  unfold lexUnsigned at h
  cases h1 : lexInt s with
  | none => rw [h1] at h; cases h
  | some p1 =>
    obtain ⟨i, s1⟩ := p1
    rw [h1] at h
    simp only at h
    cases h2 : lexFrac s1 with
    | none => rw [h2] at h; cases h
    | some p2 =>
      obtain ⟨f, s2⟩ := p2
      rw [h2] at h
      simp only at h
      cases h3 : lexExp s2 with
      | none => rw [h3] at h; cases h
      | some p3 =>
        obtain ⟨e, s3⟩ := p3
        rw [h3] at h
        simp only [Option.some.injEq, Prod.mk.injEq] at h
        rw [← h.2]
        have a1 := lexInt_length _ _ _ h1
        have a2 := lexFrac_length _ _ _ h2
        have a3 := lexExp_length _ _ _ h3
        omega

theorem lexNumber_length (s l r : List Char) (h : lexNumber s = some (l, r)) :
    r.length ≤ s.length := by
  cases s with
  | nil => simp [lexNumber] at h
  | cons c cs =>
    rw [lexNumber] at h
    by_cases h0 : c = '-'
    · simp only [h0, if_true] at h
      cases h1 : lexUnsigned cs with
      | none => rw [h1] at h; cases h
      | some p1 =>
        obtain ⟨l1, s1⟩ := p1
        rw [h1] at h
        simp only [Option.some.injEq, Prod.mk.injEq] at h
        rw [← h.2]
        have := lexUnsigned_length _ _ _ h1
        simp only [List.length_cons]; omega
    · simp only [h0, if_false] at h
      exact lexUnsigned_length _ _ _ h

theorem lexWord_length (w s r : List Char) (h : lexWord w s = some r) :
    r.length ≤ s.length := by
  unfold lexWord at h
  split_ifs at h
  simp only [Option.some.injEq] at h
  rw [← h]
  simp

theorem skipWS_cons_length (s r : List Char) (c : Char) (h : skipWS s = c :: r) :
    r.length < s.length := by
  have := length_skipWS_le s
  rw [h] at this
  simp only [List.length_cons] at this
  omega

/-- The element loop gives the same result with any two fuels above the length of
its input, and leaves less input than it was given. -/
theorem parseElems_fuel (p q : List Char → Option (JVal × List Char)) :
    ∀ (a : Nat) (r : List Char) (acc : List JVal) (b : Nat),
    (∀ t, t.length ≤ r.length →
      p t = q t ∧ ∀ v r', p t = some (v, r') → r'.length ≤ t.length) →
    r.length < a → r.length < b →
    parseElems p a r acc = parseElems q b r acc ∧
    ∀ v r', parseElems p a r acc = some (v, r') → r'.length ≤ r.length := by
  intro a
  induction a with
  | zero => intro r acc b _ ha _; omega
  | succ a' ih =>
    intro r acc b H ha hb
    cases b with
    | zero => omega
    | succ b' =>
      have hpq := (H r (Nat.le_refl _)).1
      simp only [parseElems]
      rw [← hpq]
      cases hp : p r with
      | none => simp
      | some vr =>
        obtain ⟨v, r0⟩ := vr
        have hr0 := (H r (Nat.le_refl _)).2 v r0 hp
        simp only
        cases hs : skipWS r0 with
        | nil => simp
        | cons c r1 =>
          have hr1 := skipWS_cons_length r0 r1 c hs
          simp only
          by_cases hc : c = ','
          · simp only [hc, if_true]
            have := ih r1 (acc ++ [v]) b'
              (fun t ht => H t (by omega)) (by omega) (by omega)
            refine ⟨this.1, fun v' r' h' => ?_⟩
            have := this.2 v' r' h'
            omega
          · simp only [hc, if_false]
            by_cases hd : c = ']'
            · simp only [hd, if_true, Option.some.injEq, Prod.mk.injEq, true_and]
              intro v' r' h'
              rw [← h'.2]; omega
            · simp [hd]

/-- The member loop gives the same result with any two fuels above the length of
its input, and leaves less input than it was given. -/
theorem parseMembers_fuel (p q : List Char → Option (JVal × List Char)) :
    ∀ (a : Nat) (r : List Char) (acc : List (List Char × JVal)) (b : Nat),
    (∀ t, t.length ≤ r.length →
      p t = q t ∧ ∀ v r', p t = some (v, r') → r'.length ≤ t.length) →
    r.length < a → r.length < b →
    parseMembers p a r acc = parseMembers q b r acc ∧
    ∀ v r', parseMembers p a r acc = some (v, r') → r'.length ≤ r.length := by
  intro a
  induction a with
  | zero => intro r acc b _ ha _; omega
  | succ a' ih =>
    intro r acc b H ha hb
    cases b with
    | zero => omega
    | succ b' =>
      simp only [parseMembers]
      cases hs0 : skipWS r with
      | nil => simp
      | cons q0 rq =>
        have hrq := skipWS_cons_length r rq q0 hs0
        simp only
        by_cases hq0 : q0 = '"'
        · simp only [hq0, if_true]
          cases hk : unquoteBody rq 0 [] with
          | none => simp
          | some kr =>
            obtain ⟨k, r1⟩ := kr
            have hr1 := unquoteBody_length _ _ _ _ _ hk
            simp only
            cases hs1 : skipWS r1 with
            | nil => simp
            | cons c r2 =>
              have hr2 := skipWS_cons_length r1 r2 c hs1
              simp only
              by_cases hc : c = ':'
              · simp only [hc, if_true]
                have hpq := (H r2 (by omega)).1
                rw [← hpq]
                cases hp : p r2 with
                | none => simp
                | some vr =>
                  obtain ⟨v, r3⟩ := vr
                  have hr3 := (H r2 (by omega)).2 v r3 hp
                  simp only
                  cases hs3 : skipWS r3 with
                  | nil => simp
                  | cons d r4 =>
                    have hr4 := skipWS_cons_length r3 r4 d hs3
                    simp only
                    by_cases hd : d = ','
                    · simp only [hd, if_true]
                      have := ih r4 (acc ++ [(k, v)]) b'
                        (fun t ht => H t (by omega)) (by omega) (by omega)
                      refine ⟨this.1, fun v' r' h' => ?_⟩
                      have := this.2 v' r' h'
                      omega
                    · simp only [hd, if_false]
                      by_cases he : d = '}'
                      · simp only [he, if_true, Option.some.injEq, Prod.mk.injEq, true_and]
                        intro v' r' h'
                        rw [← h'.2]; omega
                      · simp [he]
              · simp [hc]
        · simp [hq0]

theorem lexWord_map_length (w r : List Char) (v v' : JVal) (r' : List Char)
    (h : (lexWord w r).map (fun r1 => (v, r1)) = some (v', r')) : r'.length ≤ r.length := by
  cases hw : lexWord w r with
  | none => rw [hw] at h; cases h
  | some r1 =>
    rw [hw] at h
    simp only [Option.map_some', Option.some.injEq, Prod.mk.injEq] at h
    rw [← h.2]
    exact lexWord_length _ _ _ hw

/-- The result of the parser does not depend on the fuel once the fuel exceeds the
length of the input, and the parser leaves no more input than it was given. -/
theorem parseValue_fuel : ∀ (L : Nat) (s : List Char) (n m depth : Nat),
    s.length ≤ L → s.length < n → s.length < m →
    parseValue n depth s = parseValue m depth s ∧
    ∀ v r, parseValue n depth s = some (v, r) → r.length ≤ s.length := by
  intro L
  induction L with
  | zero =>
    intro s n m depth hL hn hm
    have hs : s = [] := List.length_eq_zero.mp (Nat.le_zero.mp hL)
    cases n with
    | zero => omega
    | succ n' =>
      cases m with
      | zero => omega
      | succ m' =>
        rw [hs]
        simp [parseValue, skipWS]
  | succ L ih =>
    intro s n m depth hL hn hm
    cases n with
    | zero => omega
    | succ n' =>
      cases m with
      | zero => omega
      | succ m' =>
        simp only [parseValue]
        cases hs : skipWS s with
        | nil => simp
        | cons c r =>
          have hr := skipWS_cons_length s r c hs
          have hcr : (c :: r).length ≤ s.length := by
            have := length_skipWS_le s
            rw [hs] at this
            exact this
          have H : ∀ t, t.length ≤ r.length →
              parseValue n' (depth + 1) t = parseValue m' (depth + 1) t ∧
              ∀ v r', parseValue n' (depth + 1) t = some (v, r') → r'.length ≤ t.length :=
            fun t ht => ih t n' m' (depth + 1) (by omega) (by omega) (by omega)
          simp only
          by_cases h1 : c = '{'
          · simp only [h1, if_true]
            by_cases hk : maxNestingDepth ≤ depth
            · simp [hk]
            · simp only [hk, if_false]
              cases hs2 : skipWS r with
              | nil => simp
              | cons d r1 =>
                have hr1 := skipWS_cons_length r r1 d hs2
                simp only
                by_cases hd : d = '}'
                · simp only [hd, if_true, Option.some.injEq, Prod.mk.injEq, true_and]
                  intro v r' h'
                  rw [← h'.2]; omega
                · simp only [hd, if_false]
                  have := parseMembers_fuel (parseValue n' (depth + 1))
                    (parseValue m' (depth + 1)) n' r [] m' H (by omega) (by omega)
                  refine ⟨this.1, fun v r' h' => ?_⟩
                  have := this.2 v r' h'
                  omega
          · simp only [h1, if_false]
            by_cases h2 : c = '['
            · simp only [h2, if_true]
              by_cases hk : maxNestingDepth ≤ depth
              · simp [hk]
              · simp only [hk, if_false]
                cases hs2 : skipWS r with
                | nil => simp
                | cons d r1 =>
                  have hr1 := skipWS_cons_length r r1 d hs2
                  simp only
                  by_cases hd : d = ']'
                  · simp only [hd, if_true, Option.some.injEq, Prod.mk.injEq, true_and]
                    intro v r' h'
                    rw [← h'.2]; omega
                  · simp only [hd, if_false]
                    have := parseElems_fuel (parseValue n' (depth + 1))
                      (parseValue m' (depth + 1)) n' r [] m' H (by omega) (by omega)
                    refine ⟨this.1, fun v r' h' => ?_⟩
                    have := this.2 v r' h'
                    omega
            · simp only [h2, if_false]
              by_cases h3 : c = '"'
              · simp only [h3, if_true, true_and]
                intro v r' h'
                cases hk : unquoteBody r 0 [] with
                | none => rw [hk] at h'; cases h'
                | some kr =>
                  obtain ⟨k, r1⟩ := kr
                  rw [hk] at h'
                  simp only [Option.some.injEq, Prod.mk.injEq] at h'
                  have := unquoteBody_length _ _ _ _ _ hk
                  rw [← h'.2]; omega
              · simp only [h3, if_false]
                by_cases h4 : c = 't'
                · simp only [h4, if_true, true_and]
                  intro v r' h'
                  have := lexWord_map_length _ _ _ _ _ h'
                  omega
                · simp only [h4, if_false]
                  by_cases h5 : c = 'f'
                  · simp only [h5, if_true, true_and]
                    intro v r' h'
                    have := lexWord_map_length _ _ _ _ _ h'
                    omega
                  · simp only [h5, if_false]
                    by_cases h6 : c = 'n'
                    · simp only [h6, if_true, true_and]
                      intro v r' h'
                      have := lexWord_map_length _ _ _ _ _ h'
                      omega
                    · simp only [h6, if_false, true_and]
                      intro v r' h'
                      cases hl : lexNumber (c :: r) with
                      | none => rw [hl] at h'; cases h'
                      | some lr =>
                        obtain ⟨l, r1⟩ := lr
                        rw [hl] at h'
                        simp only [Option.some.injEq, Prod.mk.injEq] at h'
                        have := lexNumber_length _ _ _ hl
                        rw [← h'.2]; omega

/-- An array or an object that `maxNestingDepth` others enclose is rejected. -/
theorem parseValue_too_deep (fuel depth : Nat) (r : List Char)
    (h : maxNestingDepth ≤ depth) :
    parseValue fuel depth ('[' :: r) = none ∧ parseValue fuel depth ('{' :: r) = none := by
  cases fuel with
  | zero => exact ⟨rfl, rfl⟩
  | succ f =>
    constructor
    · rw [parseValue, skipWS_cons '[' _ (by decide)]
      have h0 : ('[' : Char) ≠ '{' := by decide
      simp only [h0, if_false, if_true, h]
    · rw [parseValue, skipWS_cons '{' _ (by decide)]
      simp only [if_true, h]

/-- The fuel that `parseJSON` supplies is enough: any larger fuel gives the same
result. -/
theorem parseJSON_fuel (s : List Char) (n : Nat) (h : s.length < n) :
    parseJSON s =
      match parseValue n 0 s with
      | none => none
      | some (v, r) => if (skipWS r).isEmpty then some v else none := by
  unfold parseJSON
  rw [(parseValue_fuel s.length s (s.length + 1) n 0 (Nat.le_refl _) (by omega) h).1]

end LightTable
